import Mathlib

/-!
A shallow embedding of the block-storage arena allocator from
`src/block_storage.rs` (crate `novec`), together with proofs about its
free-space bookkeeping, best-fit search, run carving, merge-on-free logic and
the `Block` view operations.

Modelling conventions:
* machine integers (`usize`) are modelled as `Nat`;
* `MaybeUninit<T>` slots are modelled as `Option α` (`none` = uninitialized);
* operations that can panic in Rust (index out of bounds, reading a count
  from the wrong tag kind, `assume_init` on an uninitialized slot, division
  by zero) return `Except Err _`, with the corresponding `Err` value;
* the `BTreeSet<usize>` of free-run starts is modelled as a strictly sorted
  `List Nat` (ascending iteration order, set-semantics insert and erase);
* the `HashSet<InternalBlockKey>` of active keys is modelled as a `List`
  with set-semantics insert (its contents are bookkeeping only);
* Rust's `Option<usize>` ordering (`None < Some _`) is modelled by `optLt`.
-/

inductive Err where
  | emptyCreate
  | divByZero
  | wrongTag
  | indexOutOfBounds
  | dataOutOfRange
  | uninitRead
deriving DecidableEq, Repr

/-- The four block tags of `BlockIdx` in the source (including the source's
spelling `Emtpy` for a free-run continuation block). -/
inductive BlockIdx where
  | ownedStart (count : Nat)
  | owned (start : Nat)
  | emptyStart (count : Nat)
  | emtpy (start : Nat)
deriving DecidableEq, Repr

def BlockIdx.is_empty_start : BlockIdx → Bool
  | .emptyStart _ => true
  | _ => false

def BlockIdx.is_owned_start : BlockIdx → Bool
  | .ownedStart _ => true
  | _ => false

/-- `BlockIdx::get_empty_count`; panics (error) on a non-`EmptyStart` tag. -/
def BlockIdx.get_empty_count : BlockIdx → Except Err Nat
  | .emptyStart c => .ok c
  | _ => .error .wrongTag

/-- `BlockIdx::get_allocated_count`; panics (error) on a non-`OwnedStart` tag. -/
def BlockIdx.get_allocated_count : BlockIdx → Except Err Nat
  | .ownedStart c => .ok c
  | _ => .error .wrongTag

structure BlockKey where
  idx : Nat
  blocks : Nat
  generation : Nat
deriving DecidableEq, Repr

structure InternalBlockKey where
  idx : Nat
  blocks : Nat
deriving DecidableEq, Repr

/-- The `Block<'a, T>` view: the consumed key, the live-element count `len`
(a mutable borrow of the run's `OwnedStart` count in the source) and the
run's slice of element slots. -/
structure Block (α : Type) where
  key : BlockKey
  len : Nat
  data : List (Option α)
deriving DecidableEq

/-- `Block::push`: reject the item when `len >= capacity`, otherwise store it
at position `len` and increment `len`. -/
def Block.push {α : Type} (b : Block α) (item : α) : Option α × Block α :=
  if b.len ≥ b.data.length then (some item, b)
  else (none, { b with data := b.data.set b.len (some item), len := b.len + 1 })

/-- `Block::pop`: the source replaces `self.data[*self.len]` (not
`len - 1`) with an uninitialized slot and `assume_init`s the old value.
Indexing at `len` is out of bounds when `len = capacity`, and reads an
uninitialized slot otherwise; both are modelled as errors. -/
def Block.pop {α : Type} (b : Block α) : Except Err (Option α × Block α) :=
  if b.len = 0 then .ok (none, b)
  else
    match b.data[b.len]? with
    | none => .error .indexOutOfBounds
    | some none => .error .uninitRead
    | some (some v) =>
        .ok (some v, { b with data := b.data.set b.len none, len := b.len - 1 })

/-- `Block::get`: bounds-checked read of an element below `len`. -/
def Block.get {α : Type} (b : Block α) (index : Nat) : Except Err (Option α) :=
  if index ≥ b.len then .ok none
  else
    match b.data[index]? with
    | none => .error .indexOutOfBounds
    | some none => .error .uninitRead
    | some (some v) => .ok (some v)

structure BlockStorage (α : Type) where
  block_size : Nat
  generation : Nat
  active_keys : List InternalBlockKey
  available_blocks : List Nat
  blocks : List BlockIdx
  data : List (Option α)
deriving DecidableEq

/-- `BlockStorage::new`. -/
def BlockStorage.new (α : Type) (block_size : Nat) : BlockStorage α :=
  { block_size := block_size, generation := 0, active_keys := [],
    available_blocks := [], blocks := [], data := [] }

/-- `BTreeSet::insert` on the sorted model of `available_blocks`. -/
def btreeInsert (x : Nat) : List Nat → List Nat
  | [] => [x]
  | y :: ys => if x < y then x :: y :: ys else if x = y then y :: ys else y :: btreeInsert x ys

/-- `BTreeSet::remove` on the sorted model of `available_blocks`. -/
def btreeErase (x : Nat) : List Nat → List Nat
  | [] => []
  | y :: ys => if x = y then ys else y :: btreeErase x ys

/-- `HashSet::insert` on the list model of `active_keys`. -/
def hsetInsert (x : InternalBlockKey) (l : List InternalBlockKey) : List InternalBlockKey :=
  if x ∈ l then l else x :: l

/-- Rust's derived `Option<usize>` ordering: `None` is below every `Some`. -/
def optLt : Option Nat → Option Nat → Bool
  | none, none => false
  | none, some _ => true
  | some _, none => false
  | some a, some b => decide (a < b)

/-- Indexing `blocks[i]`, which panics (error) when out of bounds. -/
def tagAt (bl : List BlockIdx) (i : Nat) : Except Err BlockIdx :=
  match bl[i]? with
  | some t => .ok t
  | none => .error .indexOutOfBounds

/-- The loop `for i in 1..count { blocks[base + i] = tag }`: writes `tag` at
positions `base + 1 .. base + k`. -/
def writeTail (tag : BlockIdx) (base : Nat) : Nat → List BlockIdx → List BlockIdx
  | 0, bl => bl
  | k + 1, bl => (writeTail tag base k bl).set (base + k + 1) tag

/-- The run-marking pattern shared by `create` and `remove` in the source:
`blocks[a] = startTag; for i in 1..n { blocks[a + i] = fill }`. -/
def writeRun (startTag fill : BlockIdx) (bl : List BlockIdx) (a n : Nat) : List BlockIdx :=
  writeTail fill a (n - 1) (bl.set a startTag)

/-- The candidate-selection loop of `BlockStorage::create`: iterate the
free-run index in ascending order, skip runs smaller than `required`, stop
on an exact fit, and otherwise keep the candidate whenever
`Some(diff) < min_diff` in Rust's `Option` ordering. -/
def find_free_block (bl : List BlockIdx) (required : Nat) :
    List Nat → Option Nat → Option Nat → Except Err (Option Nat)
  | [], _, block_id => .ok block_id
  | i :: rest, min_diff, block_id =>
    match tagAt bl i with
    | .error e => .error e
    | .ok tag =>
      match tag.get_empty_count with
      | .error e => .error e
      | .ok size =>
        if size < required then
          find_free_block bl required rest min_diff block_id
        else if size - required = 0 then
          .ok (some i)
        else if optLt (some (size - required)) min_diff then
          find_free_block bl required rest (some (size - required)) (some i)
        else
          find_free_block bl required rest min_diff block_id

/-- The match on `blocks.last()` at the head of `push_empty_blocks_until`:
the start of the trailing free run and its recorded span (or `(len, 0)` when
the tail is not free); reading the parent of a trailing `Emtpy` block panics
unless that parent is an `EmptyStart`. -/
def pushEmptyParent (bl : List BlockIdx) : Except Err (Nat × Nat) :=
  match bl.getLast? with
  | some (.emtpy p) =>
      match tagAt bl p with
      | .error e => .error e
      | .ok t =>
          match t.get_empty_count with
          | .error e => .error e
          | .ok c => .ok (p, c)
  | some (.emptyStart count) => .ok (bl.length - 1, count)
  | _ => .ok (bl.length, 0)

/-- `BlockStorage::push_empty_blocks_until`: grow the trailing free run (or
append a fresh one) until the last run records exactly `size` blocks. -/
def BlockStorage.push_empty_blocks_until {α : Type} (s : BlockStorage α) (size : Nat) :
    Except Err (InternalBlockKey × BlockStorage α) :=
  match pushEmptyParent s.blocks with
  | .error e => .error e
  | .ok pe =>
    let parent := pe.1
    let empty_size := pe.2
    let new_blocks := s.blocks ++ List.replicate (size - empty_size) (.emtpy parent)
    let new_data := s.data ++ List.replicate ((size - empty_size) * s.block_size) (none : Option α)
    .ok ({ idx := parent, blocks := size },
         { s with
             blocks := new_blocks.set parent (.emptyStart size),
             data := new_data })

/-- Destruct (drop) the initialized values in `data[i .. i + count)`; reading
an uninitialized slot is an error (`assume_init` on uninitialized memory). -/
def destructFrom {α : Type} (data : List (Option α)) (i : Nat) : Nat → Except Err (List (Option α))
  | 0 => .ok data
  | n + 1 =>
    match data[i]? with
    | none => .error .dataOutOfRange
    | some none => .error .uninitRead
    | some (some _) => destructFrom (data.set i none) (i + 1) n

/-- The slice `data[start .. start + count)` (panics when it overruns the
buffer) with every element destructed. -/
def destructRange {α : Type} (data : List (Option α)) (start count : Nat) :
    Except Err (List (Option α)) :=
  if start + count ≤ data.length then destructFrom data start count
  else .error .dataOutOfRange

/-- `BlockStorage::remove`: destruct the run's live elements, coalesce with
the free runs immediately after and before it, and record the merged start. -/
def BlockStorage.remove {α : Type} (s : BlockStorage α) (key : BlockKey) :
    Except Err (BlockStorage α) :=
  if key.generation ≠ s.generation then .ok s
  else
    match tagAt s.blocks key.idx with
    | .error e => .error e
    | .ok (.owned _) => .ok s
    | .ok (.emptyStart _) => .ok s
    | .ok (.emtpy _) => .ok s
    | .ok (.ownedStart allocated) =>
      match destructRange s.data (key.idx * s.block_size) allocated with
      | .error e => .error e
      | .ok data' =>
      let next_block := key.idx + key.blocks
      let right : List Nat × Nat :=
        match s.blocks[next_block]? with
        | some (.emptyStart count) =>
            (btreeErase next_block s.available_blocks, next_block + count)
        | _ => (s.available_blocks, next_block)
      let endIdx := right.2
      let left : List Nat × Nat :=
        if 0 < key.idx then
          match s.blocks[key.idx - 1]? with
          | some (.emtpy parent) => (btreeErase parent right.1, parent)
          | some (.emptyStart _) => (btreeErase (key.idx - 1) right.1, key.idx - 1)
          | _ => (right.1, key.idx)
        else (right.1, key.idx)
      let startIdx := left.2
      let count := endIdx - startIdx
      let blocks' := writeRun (.emptyStart count) (.emtpy startIdx) s.blocks startIdx count
      .ok { s with
              data := data',
              blocks := blocks',
              available_blocks := btreeInsert startIdx left.1 }

/-- The tail of `BlockStorage::create` once a start block `block_id` has been
chosen (either from the free-run index or from `push_empty_blocks_until`):
remove it from the index, read its span, split off any surplus as a new free
run, and mark `[block_id, block_id + required)` as the new allocated run.
The key's generation is the storage's generation at the head of `create`. -/
def createAt {α : Type} (s1 : BlockStorage α) (gen block_id required : Nat) :
    Except Err (BlockKey × BlockStorage α) :=
  let avail := btreeErase block_id s1.available_blocks
  match tagAt s1.blocks block_id with
  | .error e => .error e
  | .ok start_tag =>
    match start_tag.get_empty_count with
    | .error e => .error e
    | .ok empty_count =>
      let split : List BlockIdx × List Nat :=
        if required < empty_count then
          let idx := block_id + required
          let bc := empty_count - required
          (writeRun (.emptyStart bc) (.emtpy idx) s1.blocks idx bc, btreeInsert idx avail)
        else (s1.blocks, avail)
      let blocks' := writeRun (.ownedStart 0) (.owned block_id) split.1 block_id required
      .ok ({ idx := block_id, blocks := required, generation := gen },
           { s1 with
               blocks := blocks',
               available_blocks := split.2,
               active_keys := hsetInsert { idx := block_id, blocks := required }
                                s1.active_keys })

/-- `BlockStorage::create`: fatal on `size == 0` (and on the division by a
zero `block_size`), then best-fit search over the free-run index, extension
of the store when no candidate was selected, and carving via `createAt`. -/
def BlockStorage.create {α : Type} (s : BlockStorage α) (size : Nat) :
    Except Err (BlockKey × BlockStorage α) :=
  if size = 0 then .error .emptyCreate
  else if s.block_size = 0 then .error .divByZero
  else
    let required := size / s.block_size + (if size % s.block_size > 0 then 1 else 0)
    match find_free_block s.blocks required s.available_blocks none none with
    | .error e => .error e
    | .ok (some id) => createAt s s.generation id required
    | .ok none =>
        match s.push_empty_blocks_until required with
        | .error e => .error e
        | .ok r => createAt r.2 s.generation r.1.idx required

/-- The per-run destruction loop of `BlockStorage::clear_data`, walking every
tag with its index and destructing `allocated` elements of each owned start. -/
def clearDataAux {α : Type} (bs : Nat) :
    List BlockIdx → Nat → List (Option α) → Except Err (List (Option α))
  | [], _, data => .ok data
  | .ownedStart cnt :: rest, i, data => do
      let d' ← destructRange data (i * bs) cnt
      clearDataAux bs rest (i + 1) d'
  | _ :: rest, i, data => clearDataAux bs rest (i + 1) data

/-- `BlockStorage::clear_data`: destruct every live element, then empty the
tag and data arrays. -/
def BlockStorage.clear_data {α : Type} (s : BlockStorage α) : Except Err (BlockStorage α) :=
  match clearDataAux s.block_size s.blocks 0 s.data with
  | .error e => .error e
  | .ok _ => .ok { s with blocks := [], data := [] }

/-- `BlockStorage::clear`: bump the generation, destruct and reset. -/
def BlockStorage.clear {α : Type} (s : BlockStorage α) : Except Err (BlockStorage α) :=
  match ({ s with generation := s.generation + 1 } : BlockStorage α).clear_data with
  | .error e => .error e
  | .ok s2 => .ok { s2 with active_keys := [], available_blocks := [] }

/-- `BlockStorage::get`: exchange a key for a `Block` view; `none` when the
key's generation is stale. -/
def BlockStorage.get {α : Type} (s : BlockStorage α) (key : BlockKey) :
    Except Err (Option (Block α)) :=
  if key.generation ≠ s.generation then .ok none
  else
    match tagAt s.blocks key.idx with
    | .error e => .error e
    | .ok tag =>
      match tag.get_allocated_count with
      | .error e => .error e
      | .ok len =>
        let start := key.idx * s.block_size
        let sz := key.blocks * s.block_size
        if start + sz ≤ s.data.length then
          .ok (some { key := key, len := len, data := (s.data.drop start).take sz })
        else .error .dataOutOfRange

/-!
Trace semantics: the storage driven by an arbitrary finite sequence of
`create`/`remove`/`clear` calls. Rust's ownership discipline makes a
`BlockKey` affine — `remove` consumes it — so the driver holds the list of
keys it still owns, `create` appends the fresh key, and `remove k` consumes
the `k`-th held key (a `remove` of a key the caller does not hold cannot be
written in the source language and is modelled as a no-op).
-/

inductive Op where
  | create (size : Nat)
  | remove (k : Nat)
  | clear
deriving DecidableEq, Repr

structure TraceState (α : Type) where
  storage : BlockStorage α
  held : List BlockKey
deriving DecidableEq

def stepOp {α : Type} (t : TraceState α) : Op → Except Err (TraceState α)
  | .create size =>
      match t.storage.create size with
      | .error e => .error e
      | .ok r => .ok { storage := r.2, held := t.held ++ [r.1] }
  | .remove k =>
      match t.held[k]? with
      | none => .ok t
      | some key =>
          match t.storage.remove key with
          | .error e => .error e
          | .ok s' => .ok { storage := s', held := t.held.eraseIdx k }
  | .clear =>
      match t.storage.clear with
      | .error e => .error e
      | .ok s' => .ok { storage := s', held := t.held }

def runOps {α : Type} (t : TraceState α) : List Op → Except Err (TraceState α)
  | [] => .ok t
  | op :: ops =>
      match stepOp t op with
      | .error e => .error e
      | .ok t1 => runOps t1 ops

/-- A fresh storage (as built by `BlockStorage::new`) with no held keys. -/
def initState (α : Type) (bs : Nat) : TraceState α :=
  { storage := BlockStorage.new α bs, held := [] }

/-!
Basic lemmas about the list-level helpers.
-/

theorem writeTail_length (tag : BlockIdx) (base k : Nat) (bl : List BlockIdx) :
    (writeTail tag base k bl).length = bl.length := by
  induction k with
  | zero => rfl
  | succ k ih => simp [writeTail, ih]

theorem writeTail_getElem? (tag : BlockIdx) (base k : Nat) (bl : List BlockIdx)
    (h : base + k < bl.length) (j : Nat) :
    (writeTail tag base k bl)[j]? = if base < j ∧ j ≤ base + k then some tag else bl[j]? := by
  induction k with
  | zero =>
      show bl[j]? = _
      rw [if_neg (show ¬(base < j ∧ j ≤ base + 0) by omega)]
  | succ k ih =>
      show ((writeTail tag base k bl).set (base + k + 1) tag)[j]? = _
      rw [List.getElem?_set, writeTail_length, ih (by omega)]
      by_cases hj : base + k + 1 = j
      · subst hj
        rw [if_pos rfl, if_pos (show base + k + 1 < bl.length by omega),
            if_pos (show base < base + k + 1 ∧ base + k + 1 ≤ base + (k + 1) by omega)]
      · by_cases hin : base < j ∧ j ≤ base + k
        · rw [if_neg hj, if_pos hin, if_pos (show base < j ∧ j ≤ base + (k + 1) by omega)]
        · rw [if_neg hj, if_neg hin, if_neg (show ¬(base < j ∧ j ≤ base + (k + 1)) by omega)]

theorem writeRun_length (st f : BlockIdx) (bl : List BlockIdx) (a n : Nat) :
    (writeRun st f bl a n).length = bl.length := by
  simp [writeRun, writeTail_length]

theorem writeRun_getElem? (st f : BlockIdx) (bl : List BlockIdx) (a n : Nat)
    (h1 : 1 ≤ n) (h2 : a + n ≤ bl.length) (j : Nat) :
    (writeRun st f bl a n)[j]? =
      if j = a then some st else if a < j ∧ j < a + n then some f else bl[j]? := by
  unfold writeRun
  rw [writeTail_getElem? f a (n - 1) (bl.set a st)
        (by rw [List.length_set]; omega) j,
      List.getElem?_set]
  by_cases hj : j = a
  · rw [if_neg (show ¬(a < j ∧ j ≤ a + (n - 1)) by omega), if_pos hj.symm,
        if_pos (show a < bl.length by omega), if_pos hj]
  · by_cases hin : a < j ∧ j ≤ a + (n - 1)
    · rw [if_pos hin, if_neg hj, if_pos (show a < j ∧ j < a + n by omega)]
    · rw [if_neg hin, if_neg (fun h => hj h.symm), if_neg hj,
          if_neg (show ¬(a < j ∧ j < a + n) by omega)]

theorem mem_btreeInsert {x y : Nat} {l : List Nat} :
    y ∈ btreeInsert x l ↔ y = x ∨ y ∈ l := by
  induction l with
  | nil => simp [btreeInsert]
  | cons z zs ih =>
      by_cases h1 : x < z
      · simp [btreeInsert, h1]
      · by_cases h2 : x = z
        · subst h2
          simp [btreeInsert, h1]
        · simp [btreeInsert, h1, h2, ih]
          tauto

theorem btreeInsert_pairwise {x : Nat} {l : List Nat} (h : l.Pairwise (· < ·)) :
    (btreeInsert x l).Pairwise (· < ·) := by
  induction l with
  | nil => simp [btreeInsert]
  | cons z zs ih =>
      rw [List.pairwise_cons] at h
      by_cases h1 : x < z
      · simp only [btreeInsert, if_pos h1]
        rw [List.pairwise_cons]
        refine ⟨?_, List.pairwise_cons.mpr h⟩
        intro b hb
        rcases List.mem_cons.mp hb with hb | hb
        · omega
        · exact lt_trans h1 (h.1 b hb)
      · by_cases h2 : x = z
        · subst h2
          simp only [btreeInsert, if_neg h1, if_pos rfl]
          exact List.pairwise_cons.mpr h
        · simp only [btreeInsert, if_neg h1, if_neg h2]
          rw [List.pairwise_cons]
          refine ⟨?_, ih h.2⟩
          intro b hb
          rcases mem_btreeInsert.mp hb with hb | hb
          · omega
          · exact h.1 b hb

theorem btreeErase_sublist (x : Nat) (l : List Nat) : (btreeErase x l).Sublist l := by
  induction l with
  | nil => simp [btreeErase]
  | cons z zs ih =>
      by_cases h : x = z
      · simp [btreeErase, h]
      · simpa [btreeErase, h] using List.Sublist.cons₂ z ih

theorem btreeErase_pairwise {x : Nat} {l : List Nat} (h : l.Pairwise (· < ·)) :
    (btreeErase x l).Pairwise (· < ·) :=
  List.Pairwise.sublist (btreeErase_sublist x l) h

/-!
Generation bookkeeping: `create` and `remove` keep the generation, `clear`
increments it, and a run of operations never decreases it.
-/

theorem push_empty_gen {α : Type} {s s' : BlockStorage α} {n : Nat} {ik : InternalBlockKey}
    (h : s.push_empty_blocks_until n = .ok (ik, s')) :
    s'.generation = s.generation ∧ s'.block_size = s.block_size := by
  unfold BlockStorage.push_empty_blocks_until at h
  split at h
  · cases h
  · cases h; exact ⟨rfl, rfl⟩

theorem createAt_gen {α : Type} {s1 s' : BlockStorage α} {gen block_id required : Nat}
    {key : BlockKey} (h : createAt s1 gen block_id required = .ok (key, s')) :
    s'.generation = s1.generation ∧ key.generation = gen := by
  unfold createAt at h
  split at h
  · cases h
  · split at h
    · cases h
    · cases h; exact ⟨rfl, rfl⟩

theorem create_gen {α : Type} {s s' : BlockStorage α} {size : Nat} {key : BlockKey}
    (h : s.create size = .ok (key, s')) :
    s'.generation = s.generation ∧ key.generation = s.generation := by
  unfold BlockStorage.create at h
  by_cases h0 : size = 0
  · simp [h0] at h
  · rw [if_neg h0] at h
    by_cases hbs : s.block_size = 0
    · simp [hbs] at h
    · rw [if_neg hbs] at h
      dsimp only at h
      split at h
      · cases h
      · exact createAt_gen h
      · split at h
        · cases h
        · rename_i r hpu
          have hg := createAt_gen h
          rcases r with ⟨ik, s2⟩
          rw [(push_empty_gen hpu).1] at hg
          exact hg

theorem remove_gen {α : Type} {s s' : BlockStorage α} {key : BlockKey}
    (h : s.remove key = .ok s') : s'.generation = s.generation := by
  unfold BlockStorage.remove at h
  split at h
  · cases h; rfl
  · split at h
    · cases h
    · cases h; rfl
    · cases h; rfl
    · cases h; rfl
    · split at h
      · cases h
      · cases h; rfl

theorem clear_gen {α : Type} {s s' : BlockStorage α}
    (h : s.clear = .ok s') : s'.generation = s.generation + 1 := by
  unfold BlockStorage.clear BlockStorage.clear_data at h
  split at h
  · cases h
  · rename_i s2 hs2
    split at hs2
    · cases hs2
    · cases hs2; cases h; rfl

theorem step_gen {α : Type} {t t' : TraceState α} {op : Op}
    (h : stepOp t op = .ok t') : t.storage.generation ≤ t'.storage.generation := by
  cases op with
  | create size =>
      simp only [stepOp] at h
      split at h
      · cases h
      · rename_i r hc
        cases h
        rcases r with ⟨k2, s2⟩
        exact le_of_eq (create_gen hc).1.symm
  | remove k =>
      simp only [stepOp] at h
      split at h
      · cases h; exact le_refl _
      · rename_i key hk
        split at h
        · cases h
        · rename_i s2 hr
          cases h
          exact le_of_eq (remove_gen hr).symm
  | clear =>
      simp only [stepOp] at h
      split at h
      · cases h
      · rename_i s2 hc
        cases h
        have := clear_gen hc
        simp only
        omega

theorem run_gen {α : Type} {t t' : TraceState α} {ops : List Op}
    (h : runOps t ops = .ok t') : t.storage.generation ≤ t'.storage.generation := by
  induction ops generalizing t with
  | nil => cases h; exact le_refl _
  | cons op rest ih =>
      unfold runOps at h
      split at h
      · cases h
      · rename_i t1 hs
        exact le_trans (step_gen hs) (ih h)

theorem clear_in_run {α : Type} {t t' : TraceState α} {ops : List Op}
    (hcl : Op.clear ∈ ops) (h : runOps t ops = .ok t') :
    t.storage.generation < t'.storage.generation := by
  induction ops generalizing t with
  | nil => cases hcl
  | cons op rest ih =>
      unfold runOps at h
      split at h
      · cases h
      · rename_i t1 hs
        rcases List.mem_cons.mp hcl with hop | hrest
        · subst hop
          simp only [stepOp] at hs
          split at hs
          · cases hs
          · rename_i s2 hc
            cases hs
            have hg := clear_gen hc
            have hle := run_gen h
            simp only at hle
            omega
        · exact lt_of_le_of_lt (step_gen hs) (ih hrest h)

/-!
Claim theorems for the `Block` view and the `create` entry conditions.
-/

/-- C7: push capacity honesty. If `len < capacity`, `push item` stores `item`
at position `len`, increments `len` by one and returns `none`; if
`len = capacity` (the source tests `len >= capacity`), `push item` returns
`some item` and leaves the view — its `len` and every stored element —
unchanged. `push` never drops the item and never fails fatally (it is a
total function). -/
theorem push_capacity_honesty {α : Type} (b : Block α) (item : α) :
    (b.len < b.data.length →
      b.push item =
        (none, { key := b.key, len := b.len + 1, data := b.data.set b.len (some item) })) ∧
    (b.data.length ≤ b.len → b.push item = (some item, b)) := by
  constructor
  · intro h
    simp [Block.push, Nat.not_le.mpr h]
  · intro h
    simp [Block.push, h]

/-- Witness for C7 at a concrete one-slot block: a push below capacity stores
the element, and a push at capacity returns it unchanged. -/
theorem push_capacity_honesty_witness :
    (Block.push { key := ⟨0, 1, 0⟩, len := 0, data := [none] } (5 : Nat) =
      (none, { key := ⟨0, 1, 0⟩, len := 1, data := [some 5] })) ∧
    (Block.push { key := ⟨0, 1, 0⟩, len := 1, data := [some 5] } (7 : Nat) =
      (some 7, { key := ⟨0, 1, 0⟩, len := 1, data := [some 5] })) :=
  ⟨(push_capacity_honesty { key := ⟨0, 1, 0⟩, len := 0, data := [none] } 5).1 (by decide),
   (push_capacity_honesty { key := ⟨0, 1, 0⟩, len := 1, data := [some 5] } 7).2 (by decide)⟩

/-- C10: on a storage with `block_size = 0` every `create` call fails
fatally — with the explicit zero-size panic when `size = 0`, and with the
division by zero in `size / block_size` otherwise — so no allocation can
ever be made on such a storage (whose construction `BlockStorage.new α 0`
itself is accepted without error). -/
theorem create_zero_block_size {α : Type} (s : BlockStorage α) (size : Nat)
    (h : s.block_size = 0) :
    s.create size = .error (if size = 0 then Err.emptyCreate else Err.divByZero) := by
  unfold BlockStorage.create
  by_cases h0 : size = 0
  · simp [h0]
  · simp [h0, h]

/-- Witness for C10 on the freshly constructed `BlockStorage.new Nat 0`. -/
theorem create_zero_block_size_witness :
    (BlockStorage.new Nat 0).create 5 =
      .error (if (5 : Nat) = 0 then Err.emptyCreate else Err.divByZero) :=
  create_zero_block_size (BlockStorage.new Nat 0) 5 rfl

/-- C2: `pop` accesses `data[len]` rather than `data[len - 1]`. On a block
reached through the public API — `create 2` on a fresh storage with
`block_size = 2`, `get`, then one successful `push 42` (so `len = 1` and
the pushed element sits at position `0 = len - 1`) — `pop` reads the
uninitialized slot at position `1 = len` and fails instead of returning the
element `42`; with the block full (`len = 2 = capacity`) the access
`data[len]` is out of bounds. The claim's stated behaviour (return the
element at `len - 1`, never fail fatally) does not hold. -/
theorem pop_reads_slot_at_len :
    (((BlockStorage.new Nat 2).create 2).bind fun r => r.2.get r.1) =
        .ok (some { key := ⟨0, 1, 0⟩, len := 0, data := [none, none] }) ∧
    Block.push { key := ⟨0, 1, 0⟩, len := 0, data := [(none : Option Nat), none] } 42 =
        (none, { key := ⟨0, 1, 0⟩, len := 1, data := [some 42, none] }) ∧
    Block.pop { key := ⟨0, 1, 0⟩, len := 1, data := [(some 42 : Option Nat), none] } =
        .error .uninitRead ∧
    Block.pop { key := ⟨0, 1, 0⟩, len := 2, data := [(some 42 : Option Nat), some 7] } =
        .error .indexOutOfBounds := by
  exact ⟨rfl, rfl, rfl, rfl⟩

/-- C8: an element whose `push` succeeded (returned `none`) is never
destructed by `pop`: on the block with `len = 1` holding `42` at position
`0`, `pop` — the claim's only destruction route while the run stays live —
accesses the uninitialized slot at position `len` and aborts, leaving the
slot holding `42` untouched (and, were execution to continue as in the
source, `len` would drop to `0`, so `remove`/`clear`/teardown would destruct
the `[0, len)` prefix, which no longer covers the element). -/
theorem pushed_element_not_destructed_by_pop :
    Block.push { key := ⟨0, 1, 0⟩, len := 0, data := [(none : Option Nat), none] } 42 =
        (none, { key := ⟨0, 1, 0⟩, len := 1, data := [some 42, none] }) ∧
    Block.pop { key := ⟨0, 1, 0⟩, len := 1, data := [(some 42 : Option Nat), none] } =
        .error .uninitRead ∧
    ({ key := ⟨0, 1, 0⟩, len := 1, data := [(some 42 : Option Nat), none] } : Block Nat).data[0]? =
        some (some 42) := by
  exact ⟨rfl, rfl, rfl⟩

/-!
Claim theorems evaluated on concrete traces (block size 1).
-/

/-- C1: the best-fit selection is never taken for a positive surplus. After
the trace below the storage has exactly two free runs, at block 1 with span
3 (surplus 2) and at block 5 with span 2 (surplus 1), both large enough for
a one-block request; the claim says `create 1` must select block 5. Because
`Some(diff) < min_diff` is false when `min_diff` is `None` (Rust orders
`None` below every `Some`), neither candidate is ever recorded and `create`
instead extends the store, returning a key at the fresh block 8. -/
theorem best_fit_candidate_not_selected :
    (runOps (initState Nat 1)
        [.create 1, .create 3, .create 1, .create 2, .create 1,
         .remove 1, .remove 2]).map
      (fun t => (t.storage.available_blocks, t.storage.blocks[1]?, t.storage.blocks[5]?)) =
      .ok ([1, 5], some (.emptyStart 3), some (.emptyStart 2)) ∧
    (runOps (initState Nat 1)
        [.create 1, .create 3, .create 1, .create 2, .create 1,
         .remove 1, .remove 2, .create 1]).map
      (fun t => t.held[3]?) = .ok (some ⟨8, 1, 0⟩) := by
  exact ⟨rfl, rfl⟩

/-- C6: a reachable state in which no free run (of any span) exists, yet
`create 1` fails fatally instead of extending the store with an exact-fit
run. The trace shrinks a span-2 free run to an exact fit (the best-fit slip
makes `create 1` take the extension path), stranding the `Emtpy 1` tail
block whose parent block 1 is then re-allocated; the next `create` reads
the tail's parent tag expecting an `EmptyStart` and panics. -/
theorem store_extension_panics_on_stranded_tail :
    (runOps (initState Nat 1) [.create 1, .create 2, .remove 1, .create 1]).map
      (fun t => (t.storage.blocks, t.storage.available_blocks)) =
      .ok ([.ownedStart 0, .ownedStart 0, .emtpy 1], []) ∧
    runOps (initState Nat 1) [.create 1, .create 2, .remove 1, .create 1, .create 1] =
      .error .wrongTag := by
  exact ⟨rfl, rfl⟩

/-- C9: a reachable state (block size 1, generation 0) in which
`create 3` — a positive size on a storage built with a positive block
size — fails fatally, refuting "fails fatally if and only if size = 0".
The free run at block 0 spans 2 < 3 blocks, so `create` takes the extension
path; the trailing `Emtpy 1` block's parent tag is `Emtpy 0`, and reading
its span panics. -/
theorem create_fatal_for_positive_size :
    (runOps (initState Nat 1)
        [.create 1, .create 2, .remove 1, .create 1, .remove 1, .remove 0]).map
      (fun t => (t.storage.blocks, t.storage.available_blocks, t.storage.generation)) =
      .ok ([.emptyStart 2, .emtpy 0, .emtpy 1], [0], 0) ∧
    runOps (initState Nat 1)
        [.create 1, .create 2, .remove 1, .create 1, .remove 1, .remove 0, .create 3] =
      .error .wrongTag := by
  exact ⟨rfl, rfl⟩

/-!
C4: generation invalidation.
-/

/-- C4: after any successful run of operations containing a `clear`, a key
minted no later than the starting state (its generation is at most the
storage's generation there) has a generation different from the storage's
current generation, `get` with it returns `none`, and `remove` with it
returns the storage unchanged. -/
theorem generation_invalidation {α : Type} (t t' : TraceState α) (key : BlockKey)
    (ops : List Op) (hk : key.generation ≤ t.storage.generation)
    (hcl : Op.clear ∈ ops) (hrun : runOps t ops = .ok t') :
    key.generation ≠ t'.storage.generation ∧
    t'.storage.get key = .ok none ∧
    t'.storage.remove key = .ok t'.storage := by
  have hlt : t.storage.generation < t'.storage.generation := clear_in_run hcl hrun
  have hne : key.generation ≠ t'.storage.generation := by omega
  refine ⟨hne, ?_, ?_⟩
  · unfold BlockStorage.get
    rw [if_pos hne]
  · unfold BlockStorage.remove
    rw [if_pos hne]

/-- Witness for C4: a key of generation 0 against the state reached by a
single `clear` from a fresh storage. -/
theorem generation_invalidation_witness :
    (⟨2, 3, 0⟩ : BlockKey).generation ≠
      ({ storage := { block_size := 1, generation := 1, active_keys := [], available_blocks := [], blocks := [], data := [] }, held := [] } : TraceState Nat).storage.generation ∧
    ({ storage := { block_size := 1, generation := 1, active_keys := [], available_blocks := [], blocks := [], data := [] }, held := [] } : TraceState Nat).storage.get ⟨2, 3, 0⟩ = .ok none ∧
    ({ storage := { block_size := 1, generation := 1, active_keys := [], available_blocks := [], blocks := [], data := [] }, held := [] } : TraceState Nat).storage.remove ⟨2, 3, 0⟩ =
      .ok ({ storage := { block_size := 1, generation := 1, active_keys := [], available_blocks := [], blocks := [], data := [] }, held := [] } : TraceState Nat).storage :=
  generation_invalidation (initState Nat 1)
    { storage := { block_size := 1, generation := 1, active_keys := [], available_blocks := [], blocks := [], data := [] }, held := [] }
    ⟨2, 3, 0⟩ [Op.clear] (by decide) (by decide) rfl

/-!
The structural invariant of reachable storage states.

`BInv` constrains the tag array alone: recorded free-run spans are positive
and filled with `Emtpy` continuations pointing at their start; the tag just
past a recorded span is never another free-run start (and never an `Owned`
continuation); an `Emtpy` block either lies inside the recorded span of the
free run it points to or is part of a stranded tail (everything after it is
`Emtpy` with the same parent — such tails arise because the best-fit slip
makes `push_empty_blocks_until` shrink an oversized trailing free run);
`Owned` continuations point backwards at an `OwnedStart` and are contiguous
back to it.

`KInv` ties the keys still owned by the caller (current generation) to the
allocated runs: each such key's start block is an `OwnedStart`, the `Owned`
continuations pointing at it are exactly the interior of
`[idx, idx + blocks)`, and two distinct held keys of the current generation
have distinct start blocks.
-/

structure BInv (B : List BlockIdx) : Prop where
  es_pos : ∀ (i c : Nat), B[i]? = some (BlockIdx.emptyStart c) → 1 ≤ c
  es_run : ∀ (i c j : Nat), B[i]? = some (BlockIdx.emptyStart c) → 1 ≤ j → j < c →
      B[i + j]? = some (BlockIdx.emtpy i)
  es_next : ∀ (i c : Nat) (tg : BlockIdx), B[i]? = some (BlockIdx.emptyStart c) → B[i + c]? = some tg →
      (∃ k, tg = BlockIdx.ownedStart k) ∨ (∃ p, tg = BlockIdx.emtpy p)
  em_lt : ∀ (j p : Nat), B[j]? = some (BlockIdx.emtpy p) → p < j
  em_between : ∀ (j p u : Nat), B[j]? = some (BlockIdx.emtpy p) → p < u → u < j →
      (∃ q, B[u]? = some (BlockIdx.emtpy q) ∧ q ≤ p) ∨
      (∃ q, B[u]? = some (BlockIdx.owned q) ∧ q ≤ p)
  em_parent : ∀ (j p : Nat), B[j]? = some (BlockIdx.emtpy p) →
      (∃ c, B[p]? = some (BlockIdx.emptyStart c) ∧ j < p + c) ∨
      (∀ (v : Nat) (tg : BlockIdx), j < v → B[v]? = some tg → tg = BlockIdx.emtpy p)
  ow_lt : ∀ (j q : Nat), B[j]? = some (BlockIdx.owned q) → q < j
  ow_parent : ∀ (j q : Nat), B[j]? = some (BlockIdx.owned q) →
      ∃ cnt, B[q]? = some (BlockIdx.ownedStart cnt)
  ow_run : ∀ (j q u : Nat), B[j]? = some (BlockIdx.owned q) → q < u → u ≤ j →
      B[u]? = some (BlockIdx.owned q)

structure KInv (B : List BlockIdx) (gen : Nat) (held : List BlockKey) : Prop where
  k_gen : ∀ k ∈ held, k.generation ≤ gen
  k_blocks : ∀ k ∈ held, k.generation = gen → 1 ≤ k.blocks
  k_start : ∀ k ∈ held, k.generation = gen →
      ∃ cnt, B[k.idx]? = some (BlockIdx.ownedStart cnt)
  k_run : ∀ k ∈ held, k.generation = gen →
      ∀ u : Nat, B[u]? = some (BlockIdx.owned k.idx) ↔ (k.idx < u ∧ u < k.idx + k.blocks)
  k_distinct : held.Pairwise
      (fun k1 k2 => k1.generation = gen → k2.generation = gen → k1.idx ≠ k2.idx)

/-- The full trace invariant: tag structure, key coherence, and strict
sortedness of the free-run index. -/
def StInv {α : Type} (t : TraceState α) : Prop :=
  BInv t.storage.blocks ∧
  KInv t.storage.blocks t.storage.generation t.held ∧
  t.storage.available_blocks.Pairwise (· < ·)

theorem getElem?_some_lt {β : Type} {l : List β} {i : Nat} {x : β}
    (h : l[i]? = some x) : i < l.length :=
  (List.getElem?_eq_some.mp h).1

/-- A recorded free-run span stays inside the array. -/
theorem BInv.es_extent {B : List BlockIdx} (hB : BInv B) {i c : Nat}
    (h : B[i]? = some (.emptyStart c)) : i + c ≤ B.length := by
  have h1 : 1 ≤ c := hB.es_pos i c h
  by_cases h2 : c = 1
  · have := getElem?_some_lt h
    omega
  · have := getElem?_some_lt (hB.es_run i c (c - 1) h (by omega) (by omega))
    omega

/-- A held current-generation key's run stays inside the array. -/
theorem KInv.k_extent {B : List BlockIdx} {gen : Nat} {held : List BlockKey}
    (hK : KInv B gen held) {k : BlockKey} (hm : k ∈ held) (hg : k.generation = gen) :
    k.idx + k.blocks ≤ B.length := by
  have h1 : 1 ≤ k.blocks := hK.k_blocks k hm hg
  by_cases h2 : k.blocks = 1
  · rcases hK.k_start k hm hg with ⟨cnt, hc⟩
    have := getElem?_some_lt hc
    omega
  · have := getElem?_some_lt
      (((hK.k_run k hm hg (k.idx + k.blocks - 1)).mpr (by omega)))
    omega

theorem tagAt_ok {bl : List BlockIdx} {i : Nat} {tag : BlockIdx}
    (h : tagAt bl i = .ok tag) : bl[i]? = some tag := by
  unfold tagAt at h
  split at h
  · cases h; assumption
  · cases h

theorem get_empty_count_ok {tag : BlockIdx} {c : Nat}
    (h : tag.get_empty_count = Except.ok c) : tag = .emptyStart c := by
  cases tag with
  | emptyStart d => cases h; rfl
  | ownedStart d => cases h
  | owned q => cases h
  | emtpy p => cases h

theorem get_allocated_count_ok {tag : BlockIdx} {c : Nat}
    (h : tag.get_allocated_count = Except.ok c) : tag = .ownedStart c := by
  cases tag with
  | ownedStart d => cases h; rfl
  | emptyStart d => cases h
  | owned q => cases h
  | emtpy p => cases h

/-- With both accumulator arguments `none` — as in `create` — the selection
loop can only ever return an exact fit: `Some(diff) < None` is false in
Rust's `Option` ordering, so the best-fit tracking branch never fires. -/
theorem find_free_block_exact {bl : List BlockIdx} {required : Nat} {lst : List Nat}
    {r : Option Nat} (h : find_free_block bl required lst none none = .ok r) :
    ∀ id, r = some id → bl[id]? = some (.emptyStart required) := by
  induction lst with
  | nil =>
      unfold find_free_block at h
      cases h
      intro id hid
      cases hid
  | cons i rest ih =>
      unfold find_free_block at h
      split at h
      · cases h
      · rename_i tag htag
        split at h
        · cases h
        · rename_i size hsize
          split at h
          · exact ih h
          · rename_i hlt
            split at h
            · rename_i hz
              cases h
              intro id hid
              cases hid
              have hsz : size = required := by omega
              have := get_empty_count_ok hsize
              subst this
              subst hsz
              exact tagAt_ok htag
            · split at h
              · rename_i hopt
                exact absurd hopt (by simp [optLt])
              · exact ih h

/-- Pointwise description of appending `k` copies of `fill` and then writing
`st` at position `p` (in range of the extended array). -/
theorem append_set_get? (old : List BlockIdx) (p k : Nat) (fill st : BlockIdx)
    (hp : p < old.length + k) (u : Nat) :
    ((old ++ List.replicate k fill).set p st)[u]? =
      if u = p then some st
      else if u < old.length then old[u]?
      else if u < old.length + k then some fill
      else none := by
  rw [List.getElem?_set]
  by_cases hup : p = u
  · subst hup
    rw [if_pos rfl, if_pos (by simp [List.length_replicate]; omega), if_pos rfl]
  · rw [if_neg hup, if_neg (fun hh => hup hh.symm), List.getElem?_append]
    by_cases h1 : u < old.length
    · rw [if_pos h1, if_pos h1]
    · rw [if_neg h1, if_neg h1, List.getElem?_replicate]
      by_cases h2 : u - old.length < k
      · rw [if_pos h2, if_pos (by omega)]
      · rw [if_neg h2, if_neg (by omega)]

theorem grow_free_tail_inv {old : List BlockIdx} {gen : Nat} {held : List BlockKey}
    {p r required : Nat}
    (hB : BInv old) (hK : KInv old gen held)
    (hp : old[p]? = some (BlockIdx.emptyStart r))
    (hall : ∀ u, p < u → u < old.length → old[u]? = some (BlockIdx.emtpy p))
    (hreq : 1 ≤ required) :
    BInv ((old ++ List.replicate (required - r) (BlockIdx.emtpy p)).set p
        (BlockIdx.emptyStart required)) ∧
    KInv ((old ++ List.replicate (required - r) (BlockIdx.emtpy p)).set p
        (BlockIdx.emptyStart required)) gen held ∧
    ((old ++ List.replicate (required - r) (BlockIdx.emtpy p)).set p
        (BlockIdx.emptyStart required))[p]? = some (BlockIdx.emptyStart required) := by
  have hplen : p < old.length := getElem?_some_lt hp
  have hrext : p + r ≤ old.length := hB.es_extent hp
  have hrpos : 1 ≤ r := hB.es_pos _ _ hp
  have hN : ∀ u, ((old ++ List.replicate (required - r) (BlockIdx.emtpy p)).set p
        (BlockIdx.emptyStart required))[u]? =
      if u = p then some (BlockIdx.emptyStart required)
      else if u < p then old[u]?
      else if u < old.length + (required - r) then some (BlockIdx.emtpy p)
      else none := by
    intro u
    rw [append_set_get? old p (required - r) (BlockIdx.emtpy p) (BlockIdx.emptyStart required)
          (by omega) u]
    by_cases h1 : u = p
    · rw [if_pos h1, if_pos h1]
    · rw [if_neg h1, if_neg h1]
      by_cases h2 : u < p
      · rw [if_pos (by omega : u < old.length), if_pos h2]
      · rw [if_neg h2]
        by_cases h3 : u < old.length
        · rw [if_pos h3, hall u (by omega) h3, if_pos (by omega)]
        · rw [if_neg h3]
  have hsep : ∀ i c, old[i]? = some (BlockIdx.emptyStart c) → i < p → i + c ≤ p := by
    intro i c hi hip
    by_contra hcon
    have := hB.es_run i c (p - i) hi (by omega) (by omega)
    rw [show i + (p - i) = p by omega, hp] at this
    simp at this
  have hsep2 : ∀ i c, old[i]? = some (BlockIdx.emptyStart c) → i < p → i + c < p := by
    intro i c hi hip
    have h1 := hsep i c hi hip
    rcases Nat.lt_or_ge (i + c) p with h | h
    · exact h
    · have hpeq : i + c = p := by omega
      have := hB.es_next i c (BlockIdx.emptyStart r) hi (by rw [hpeq]; exact hp)
      rcases this with ⟨k, hk⟩ | ⟨q, hq⟩
      · simp at hk
      · simp at hq
  have hownstart : ∀ q cnt, old[q]? = some (BlockIdx.ownedStart cnt) → q < p := by
    intro q cnt hq
    have hql := getElem?_some_lt hq
    rcases Nat.lt_or_ge q p with h | h
    · exact h
    · rcases Nat.eq_or_lt_of_le h with h2 | h2
      · rw [← h2, hp] at hq; simp at hq
      · rw [hall q h2 hql] at hq; simp at hq
  refine ⟨?_, ?_, by rw [hN p]; simp⟩
  · constructor
    case es_pos =>
      intro i c hi
      rw [hN] at hi
      split_ifs at hi with h1 h2 h3
      · simp at hi; omega
      · exact hB.es_pos i c hi
      · simp at hi
    case es_run =>
      intro i c j hi h1 h2
      rw [hN] at hi
      rw [hN]
      split_ifs at hi with hip hip2 hip3
      · simp only [Option.some.injEq, BlockIdx.emptyStart.injEq] at hi
        rw [if_neg (by omega : ¬(i + j = p)), if_neg (by omega : ¬(i + j < p)),
            if_pos (by omega : i + j < old.length + (required - r)), hip]
      · have hold := hB.es_run i c j hi h1 h2
        have hic := hsep i c hi hip2
        rw [if_neg (by omega : ¬(i + j = p)), if_pos (by omega : i + j < p)]
        exact hold
      · simp at hi
    case es_next =>
      intro i c tg hi htg
      rw [hN] at hi
      rw [hN] at htg
      split_ifs at hi with hip hip2 hip3
      · simp only [Option.some.injEq, BlockIdx.emptyStart.injEq] at hi
        by_cases hlast : i + c < old.length + (required - r)
        · rw [if_neg (by omega : ¬(i + c = p)), if_neg (by omega : ¬(i + c < p)),
              if_pos hlast] at htg
          simp only [Option.some.injEq] at htg
          exact Or.inr ⟨p, htg.symm⟩
        · rw [if_neg (by omega : ¬(i + c = p)), if_neg (by omega : ¬(i + c < p)),
              if_neg hlast] at htg
          cases htg
      · have hic := hsep2 i c hi hip2
        rw [if_neg (by omega : ¬(i + c = p)), if_pos hic] at htg
        exact hB.es_next i c tg hi htg
      · simp at hi
    case em_lt =>
      intro j q hj
      rw [hN] at hj
      split_ifs at hj with h1 h2 h3
      · simp at hj
      · exact hB.em_lt j q hj
      · simp only [Option.some.injEq, BlockIdx.emtpy.injEq] at hj
        omega
    case em_between =>
      intro j q u hj hqu huj
      rw [hN] at hj
      rw [hN]
      split_ifs at hj with h1 h2 h3
      · simp at hj
      · have hold := hB.em_between j q u hj hqu huj
        rw [if_neg (by omega : ¬(u = p)), if_pos (by omega : u < p)]
        exact hold
      · simp only [Option.some.injEq, BlockIdx.emtpy.injEq] at hj
        rw [if_neg (by omega : ¬(u = p)), if_neg (by omega : ¬(u < p)),
            if_pos (by omega : u < old.length + (required - r))]
        exact Or.inl ⟨p, rfl, by omega⟩
    case em_parent =>
      intro j q hj
      rw [hN] at hj
      split_ifs at hj with h1 h2 h3
      · simp at hj
      · rcases hB.em_parent j q hj with ⟨c, hc, hjc⟩ | hd2
        · have hql : q < j := hB.em_lt j q hj
          left
          refine ⟨c, ?_, hjc⟩
          rw [hN, if_neg (by omega : ¬(q = p)), if_pos (by omega : q < p)]
          exact hc
        · have := hd2 p (BlockIdx.emptyStart r) h2 hp
          simp at this
      · simp only [Option.some.injEq, BlockIdx.emtpy.injEq] at hj
        by_cases hcase : j < p + required
        · left
          refine ⟨required, ?_, ?_⟩
          · rw [hN, if_pos (show q = p by omega)]
          · omega
        · right
          intro v tg hv htg
          rw [hN] at htg
          by_cases hlast : v < old.length + (required - r)
          · rw [if_neg (by omega : ¬(v = p)), if_neg (by omega : ¬(v < p)),
                if_pos hlast] at htg
            simp only [Option.some.injEq] at htg
            rw [← htg, hj]
          · rw [if_neg (by omega : ¬(v = p)), if_neg (by omega : ¬(v < p)),
                if_neg hlast] at htg
            cases htg
    case ow_lt =>
      intro j q hj
      rw [hN] at hj
      split_ifs at hj with h1 h2 h3
      · simp at hj
      · exact hB.ow_lt j q hj
      · simp at hj
    case ow_parent =>
      intro j q hj
      rw [hN] at hj
      split_ifs at hj with h1 h2 h3
      · simp at hj
      · rcases hB.ow_parent j q hj with ⟨cnt, hq⟩
        have hqp := hownstart q cnt hq
        refine ⟨cnt, ?_⟩
        rw [hN, if_neg (by omega : ¬(q = p)), if_pos hqp]
        exact hq
      · simp at hj
    case ow_run =>
      intro j q u hj hqu huj
      rw [hN] at hj
      split_ifs at hj with h1 h2 h3
      · simp at hj
      · have hold := hB.ow_run j q u hj hqu huj
        rw [hN, if_neg (by omega : ¬(u = p)), if_pos (by omega : u < p)]
        exact hold
      · simp at hj
  · constructor
    case k_gen => exact hK.k_gen
    case k_blocks => exact hK.k_blocks
    case k_start =>
      intro k hm hg
      rcases hK.k_start k hm hg with ⟨cnt, hc⟩
      have hkp := hownstart k.idx cnt hc
      refine ⟨cnt, ?_⟩
      rw [hN, if_neg (by omega : ¬(k.idx = p)), if_pos hkp]
      exact hc
    case k_run =>
      intro k hm hg u
      have hold := hK.k_run k hm hg u
      rw [hN]
      split_ifs with h1 h2 h3
      · constructor
        · intro hx; simp at hx
        · intro hx
          rcases hK.k_start k hm hg with ⟨cnt, hc⟩
          have h4 := hold.mpr hx
          rw [h1, hp] at h4
          simp at h4
      · exact hold
      · constructor
        · intro hx
          simp at hx
        · intro hx
          have h4 := hold.mpr hx
          have h5 := getElem?_some_lt h4
          rw [hall u (by omega) h5] at h4
          simp at h4
      · constructor
        · intro hx; cases hx
        · intro hx
          have h4 := hold.mpr hx
          have h5 := getElem?_some_lt h4
          omega
    case k_distinct => exact hK.k_distinct

theorem append_fresh_free_inv {old : List BlockIdx} {gen : Nat} {held : List BlockKey}
    {required : Nat}
    (hB : BInv old) (hK : KInv old gen held)
    (htail : ∀ tg, old.getLast? = some tg →
        (∃ cnt, tg = BlockIdx.ownedStart cnt) ∨ (∃ q, tg = BlockIdx.owned q))
    (hreq : 1 ≤ required) :
    BInv ((old ++ List.replicate (required - 0) (BlockIdx.emtpy old.length)).set old.length
        (BlockIdx.emptyStart required)) ∧
    KInv ((old ++ List.replicate (required - 0) (BlockIdx.emtpy old.length)).set old.length
        (BlockIdx.emptyStart required)) gen held ∧
    ((old ++ List.replicate (required - 0) (BlockIdx.emtpy old.length)).set old.length
        (BlockIdx.emptyStart required))[old.length]? = some (BlockIdx.emptyStart required) := by
  have hlast : ∀ u tg, u + 1 = old.length → old[u]? = some tg →
      (∃ cnt, tg = BlockIdx.ownedStart cnt) ∨ (∃ q, tg = BlockIdx.owned q) := by
    intro u tg hu htg
    apply htail
    rw [List.getLast?_eq_getElem?]
    rw [show old.length - 1 = u by omega]
    exact htg
  have hN : ∀ u, ((old ++ List.replicate (required - 0) (BlockIdx.emtpy old.length)).set
        old.length (BlockIdx.emptyStart required))[u]? =
      if u = old.length then some (BlockIdx.emptyStart required)
      else if u < old.length then old[u]?
      else if u < old.length + required then some (BlockIdx.emtpy old.length)
      else none := by
    intro u
    rw [append_set_get? old old.length (required - 0) (BlockIdx.emtpy old.length)
          (BlockIdx.emptyStart required) (by omega) u]
    by_cases h1 : u = old.length
    · rw [if_pos h1, if_pos h1]
    · rw [if_neg h1, if_neg h1]
      by_cases h2 : u < old.length
      · rw [if_pos h2, if_pos h2]
      · rw [if_neg h2, if_neg h2]
        by_cases h3 : u < old.length + (required - 0)
        · rw [if_pos h3, if_pos (by omega)]
        · rw [if_neg h3, if_neg (by omega)]
  -- no free run of the old array reaches its end
  have hend : ∀ i c, old[i]? = some (BlockIdx.emptyStart c) → i + c < old.length := by
    intro i c hi
    have hext := hB.es_extent hi
    have hpos := hB.es_pos _ _ hi
    have hil := getElem?_some_lt hi
    rcases Nat.lt_or_ge (i + c) old.length with h | h
    · exact h
    · have heq : i + c = old.length := by omega
      by_cases hc1 : c = 1
      · rcases hlast i (BlockIdx.emptyStart c) (by omega) hi with ⟨cnt, hk⟩ | ⟨q, hk⟩ <;>
          simp at hk
      · have hrun := hB.es_run i c (c - 1) hi (by omega) (by omega)
        rcases hlast (i + (c - 1)) (BlockIdx.emtpy i) (by omega) hrun with ⟨cnt, hk⟩ | ⟨q, hk⟩ <;>
          simp at hk
  -- every Emtpy block of the old array lies inside the recorded span of its parent
  have hd1 : ∀ j q, old[j]? = some (BlockIdx.emtpy q) →
      ∃ c, old[q]? = some (BlockIdx.emptyStart c) ∧ j < q + c := by
    intro j q hj
    have hjl := getElem?_some_lt hj
    rcases hB.em_parent j q hj with hd | hd2
    · exact hd
    · exfalso
      by_cases hje : j + 1 = old.length
      · rcases hlast j (BlockIdx.emtpy q) hje hj with ⟨cnt, hk⟩ | ⟨q2, hk⟩ <;> simp at hk
      · have hlt : old.length - 1 < old.length := by omega
        rcases hlook : old[old.length - 1]? with _ | tg
        · rw [List.getElem?_eq_getElem hlt] at hlook
          cases hlook
        · have htg2 : tg = BlockIdx.emtpy q := hd2 (old.length - 1) tg (by omega) hlook
          subst htg2
          rcases hlast (old.length - 1) (BlockIdx.emtpy q) (by omega) hlook with ⟨cnt, hk⟩ |
            ⟨q2, hk⟩ <;> simp at hk
  refine ⟨?_, ?_, by rw [hN]; simp⟩
  · constructor
    case es_pos =>
      intro i c hi
      rw [hN] at hi
      split_ifs at hi with h1 h2 h3
      · simp at hi; omega
      · exact hB.es_pos i c hi
      · simp at hi
    case es_run =>
      intro i c j hi h1 h2
      rw [hN] at hi
      rw [hN]
      split_ifs at hi with hip hip2 hip3
      · simp only [Option.some.injEq, BlockIdx.emptyStart.injEq] at hi
        rw [if_neg (by omega : ¬(i + j = old.length)),
            if_neg (by omega : ¬(i + j < old.length)),
            if_pos (by omega : i + j < old.length + required), hip]
      · have hext := hB.es_extent hi
        rw [if_neg (by omega : ¬(i + j = old.length)),
            if_pos (by omega : i + j < old.length)]
        exact hB.es_run i c j hi h1 h2
      · simp at hi
    case es_next =>
      intro i c tg hi htg
      rw [hN] at hi
      rw [hN] at htg
      split_ifs at hi with hip hip2 hip3
      · simp only [Option.some.injEq, BlockIdx.emptyStart.injEq] at hi
        rw [if_neg (by omega : ¬(i + c = old.length)),
            if_neg (by omega : ¬(i + c < old.length)),
            if_neg (by omega : ¬(i + c < old.length + required))] at htg
        cases htg
      · have hic := hend i c hi
        rw [if_neg (by omega : ¬(i + c = old.length)), if_pos hic] at htg
        exact hB.es_next i c tg hi htg
      · simp at hi
    case em_lt =>
      intro j q hj
      rw [hN] at hj
      split_ifs at hj with h1 h2 h3
      · simp at hj
      · exact hB.em_lt j q hj
      · simp only [Option.some.injEq, BlockIdx.emtpy.injEq] at hj
        omega
    case em_between =>
      intro j q u hj hqu huj
      rw [hN] at hj
      rw [hN]
      split_ifs at hj with h1 h2 h3
      · simp at hj
      · rw [if_neg (by omega : ¬(u = old.length)), if_pos (by omega : u < old.length)]
        exact hB.em_between j q u hj hqu huj
      · simp only [Option.some.injEq, BlockIdx.emtpy.injEq] at hj
        rw [if_neg (by omega : ¬(u = old.length)), if_neg (by omega : ¬(u < old.length)),
            if_pos (by omega : u < old.length + required)]
        exact Or.inl ⟨old.length, rfl, by omega⟩
    case em_parent =>
      intro j q hj
      rw [hN] at hj
      split_ifs at hj with h1 h2 h3
      · simp at hj
      · rcases hd1 j q hj with ⟨c, hc, hjc⟩
        have hql : q < j := hB.em_lt j q hj
        left
        refine ⟨c, ?_, hjc⟩
        rw [hN, if_neg (by omega : ¬(q = old.length)), if_pos (by omega : q < old.length)]
        exact hc
      · simp only [Option.some.injEq, BlockIdx.emtpy.injEq] at hj
        left
        refine ⟨required, ?_, ?_⟩
        · rw [hN, if_pos (show q = old.length by omega)]
        · omega
    case ow_lt =>
      intro j q hj
      rw [hN] at hj
      split_ifs at hj with h1 h2 h3
      · simp at hj
      · exact hB.ow_lt j q hj
      · simp at hj
    case ow_parent =>
      intro j q hj
      rw [hN] at hj
      split_ifs at hj with h1 h2 h3
      · simp at hj
      · rcases hB.ow_parent j q hj with ⟨cnt, hq⟩
        have hql : q < j := hB.ow_lt j q hj
        refine ⟨cnt, ?_⟩
        rw [hN, if_neg (by omega : ¬(q = old.length)),
            if_pos (by omega : q < old.length)]
        exact hq
      · simp at hj
    case ow_run =>
      intro j q u hj hqu huj
      rw [hN] at hj
      split_ifs at hj with h1 h2 h3
      · simp at hj
      · rw [hN, if_neg (by omega : ¬(u = old.length)),
            if_pos (by omega : u < old.length)]
        exact hB.ow_run j q u hj hqu huj
      · simp at hj
  · constructor
    case k_gen => exact hK.k_gen
    case k_blocks => exact hK.k_blocks
    case k_start =>
      intro k hm hg
      rcases hK.k_start k hm hg with ⟨cnt, hc⟩
      have := getElem?_some_lt hc
      refine ⟨cnt, ?_⟩
      rw [hN, if_neg (by omega : ¬(k.idx = old.length)), if_pos (by omega)]
      exact hc
    case k_run =>
      intro k hm hg u
      have hold := hK.k_run k hm hg u
      rw [hN]
      split_ifs with h1 h2
      · constructor
        · intro hx; simp at hx
        · intro hx
          have h4 := hold.mpr hx
          have h5 := getElem?_some_lt h4
          omega
      · exact hold
      · constructor
        · intro hx; simp at hx
        · intro hx
          have h4 := hold.mpr hx
          have h5 := getElem?_some_lt h4
          omega
      · constructor
        · intro hx; cases hx
        · intro hx
          have h4 := hold.mpr hx
          have h5 := getElem?_some_lt h4
          omega
    case k_distinct => exact hK.k_distinct

theorem push_empty_inv {α : Type} {s s' : BlockStorage α} {gen required : Nat}
    {held : List BlockKey} {ik : InternalBlockKey}
    (hB : BInv s.blocks) (hK : KInv s.blocks gen held)
    (hreq : 1 ≤ required)
    (h : s.push_empty_blocks_until required = .ok (ik, s')) :
    BInv s'.blocks ∧ KInv s'.blocks gen held ∧
    s'.blocks[ik.idx]? = some (BlockIdx.emptyStart required) ∧
    s'.available_blocks = s.available_blocks ∧
    s'.generation = s.generation ∧ ik.blocks = required := by
  unfold BlockStorage.push_empty_blocks_until at h
  cases hpe : pushEmptyParent s.blocks with
  | error e => rw [hpe] at h; cases h
  | ok pe =>
      rw [hpe] at h
      cases h
      unfold pushEmptyParent at hpe
      split at hpe
      · rename_i p hlastp
        split at hpe
        · cases hpe
        · rename_i t htag
          split at hpe
          · cases hpe
          · rename_i c hcnt
            cases hpe
            have hp : s.blocks[p]? = some (BlockIdx.emptyStart c) := by
              have := get_empty_count_ok hcnt
              rw [← this]
              exact tagAt_ok htag
            have hlen1 : 1 ≤ s.blocks.length := by
              by_contra hc
              have : s.blocks = [] := List.length_eq_zero.mp (by omega)
              rw [this] at hlastp
              cases hlastp
            have hlast2 : s.blocks[s.blocks.length - 1]? = some (BlockIdx.emtpy p) := by
              rw [← List.getLast?_eq_getElem?]
              exact hlastp
            have hpl : p < s.blocks.length - 1 := hB.em_lt _ _ hlast2
            have hall : ∀ u, p < u → u < s.blocks.length →
                s.blocks[u]? = some (BlockIdx.emtpy p) := by
              intro u hu1 hu2
              by_cases hu3 : u = s.blocks.length - 1
              · rw [hu3]; exact hlast2
              · rcases hB.em_between (s.blocks.length - 1) p u hlast2 hu1 (by omega)
                  with ⟨q, hq, hqp⟩ | ⟨q, hq, hqp⟩
                · rcases Nat.eq_or_lt_of_le hqp with hqe | hql
                  · rw [hq, hqe]
                  · exfalso
                    rcases hB.em_parent u q hq with ⟨c2, hc2, huc⟩ | hd2
                    · have hpin := hB.es_run q c2 (p - q) hc2 (by omega) (by omega)
                      rw [show q + (p - q) = p by omega, hp] at hpin
                      simp at hpin
                    · have := hd2 (s.blocks.length - 1) (BlockIdx.emtpy p) (by omega) hlast2
                      simp only [BlockIdx.emtpy.injEq] at this
                      omega
                · exfalso
                  rcases Nat.eq_or_lt_of_le hqp with hqe | hql
                  · rcases hB.ow_parent u q hq with ⟨cnt, hc⟩
                    rw [hqe, hp] at hc
                    simp at hc
                  · have := hB.ow_run u q p hq (by omega) (by omega)
                    rw [hp] at this
                    simp at this
            exact (grow_free_tail_inv hB hK hp hall hreq).imp id
              (fun h2 => ⟨h2.1, h2.2, rfl, rfl, rfl⟩)
      · rename_i count hlastp
        cases hpe
        have hlen1 : 1 ≤ s.blocks.length := by
          by_contra hc
          have : s.blocks = [] := List.length_eq_zero.mp (by omega)
          rw [this] at hlastp
          cases hlastp
        have hp : s.blocks[s.blocks.length - 1]? = some (BlockIdx.emptyStart count) := by
          rw [← List.getLast?_eq_getElem?]
          exact hlastp
        have hall : ∀ u, s.blocks.length - 1 < u → u < s.blocks.length →
            s.blocks[u]? = some (BlockIdx.emtpy (s.blocks.length - 1)) := by
          intro u hu1 hu2
          omega
        exact (grow_free_tail_inv hB hK hp hall hreq).imp id
          (fun h2 => ⟨h2.1, h2.2, rfl, rfl, rfl⟩)
      · rename_i hne1 hne2
        cases hpe
        have htail : ∀ tg, s.blocks.getLast? = some tg →
            (∃ cnt, tg = BlockIdx.ownedStart cnt) ∨ (∃ q, tg = BlockIdx.owned q) := by
          intro tg htg
          cases tg with
          | ownedStart cnt => exact Or.inl ⟨cnt, rfl⟩
          | owned q => exact Or.inr ⟨q, rfl⟩
          | emptyStart c => exact absurd htg (by intro hx; exact hne2 c hx)
          | emtpy p => exact absurd htg (by intro hx; exact hne1 p hx)
        exact (append_fresh_free_inv hB hK htail hreq).imp id
          (fun h2 => ⟨h2.1, h2.2, rfl, rfl, rfl⟩)

theorem alloc_write_inv {old : List BlockIdx} {gen : Nat} {held : List BlockKey}
    {g required : Nat}
    (hB : BInv old) (hK : KInv old gen held)
    (htag : old[g]? = some (BlockIdx.emptyStart required)) :
    BInv (writeRun (BlockIdx.ownedStart 0) (BlockIdx.owned g) old g required) ∧
    KInv (writeRun (BlockIdx.ownedStart 0) (BlockIdx.owned g) old g required) gen
      (held ++ [⟨g, required, gen⟩]) := by
  have hreq : 1 ≤ required := hB.es_pos _ _ htag
  have hext : g + required ≤ old.length := hB.es_extent htag
  have hrun : ∀ u, g < u → u < g + required → old[u]? = some (BlockIdx.emtpy g) := by
    intro u h1 h2
    have := hB.es_run g required (u - g) htag (by omega) (by omega)
    rw [show g + (u - g) = u by omega] at this
    exact this
  have hN : ∀ u, (writeRun (BlockIdx.ownedStart 0) (BlockIdx.owned g) old g required)[u]? =
      if u = g then some (BlockIdx.ownedStart 0)
      else if g < u ∧ u < g + required then some (BlockIdx.owned g)
      else old[u]? := by
    intro u
    exact writeRun_getElem? (BlockIdx.ownedStart 0) (BlockIdx.owned g) old g required
      hreq hext u
  -- no key of the current generation starts at g
  have hknotg : ∀ k, k ∈ held → k.generation = gen → k.idx ≠ g := by
    intro k hm hg hkg
    rcases hK.k_start k hm hg with ⟨cnt, hc⟩
    rw [hkg, htag] at hc
    simp at hc
  constructor
  · constructor
    case es_pos =>
      intro i c hi
      rw [hN] at hi
      split_ifs at hi with h1 h2
      · simp at hi
      · simp at hi
      · exact hB.es_pos i c hi
    case es_run =>
      intro i c j hi h1 h2
      rw [hN] at hi
      rw [hN]
      split_ifs at hi with hip hip2
      · simp at hi
      · simp at hi
      · -- i is outside the rewritten region
        have hold := hB.es_run i c j hi h1 h2
        have hig : ¬(i + j = g) := by
          intro hx
          rw [hx, htag] at hold
          simp at hold
        have hig2 : ¬(g < i + j ∧ i + j < g + required) := by
          intro hx
          rw [hrun (i + j) hx.1 hx.2] at hold
          simp only [Option.some.injEq, BlockIdx.emtpy.injEq] at hold
          -- hold : g = i, but i is outside [g, g + required)
          rcases not_and_or.mp hip2 with hc | hc
          · omega
          · omega
        rw [if_neg hig, if_neg hig2]
        exact hold
    case es_next =>
      intro i c tg hi htg
      rw [hN] at hi
      rw [hN] at htg
      split_ifs at hi with hip hip2
      · simp at hi
      · simp at hi
      · split_ifs at htg with g1 g2
        · simp only [Option.some.injEq] at htg
          exact Or.inl ⟨0, htg.symm⟩
        · -- i + c strictly inside the new run: impossible
          exfalso
          have hic : i < g := by
            rcases not_and_or.mp hip2 with hc | hc
            · -- ¬ g < i, so i ≤ g; i ≠ g since old[i] is EmptyStart and old[g] too…
              rcases Nat.lt_or_ge i g with hx | hx
              · exact hx
              · have : i = g := by omega
                omega
            · omega
          have := hB.es_run i c (g - i) hi (by omega) (by omega)
          rw [show i + (g - i) = g by omega, htag] at this
          simp at this
        · exact hB.es_next i c tg hi htg
    case em_lt =>
      intro j q hj
      rw [hN] at hj
      split_ifs at hj with h1 h2
      · simp at hj
      · simp at hj
      · exact hB.em_lt j q hj
    case em_between =>
      intro j q u hj hqu huj
      rw [hN] at hj
      rw [hN]
      split_ifs at hj with h1 h2
      · simp at hj
      · simp at hj
      · have hold := hB.em_between j q u hj hqu huj
        by_cases hu1 : u = g
        · exfalso
          rcases hold with ⟨q2, hq2, _⟩ | ⟨q2, hq2, _⟩ <;>
            rw [hu1, htag] at hq2 <;> simp at hq2
        · by_cases hu2 : g < u ∧ u < g + required
          · have hug := hrun u hu2.1 hu2.2
            rw [if_neg hu1, if_pos hu2]
            rcases hold with ⟨q2, hq2, hle⟩ | ⟨q2, hq2, hle⟩
            · rw [hug] at hq2
              simp only [Option.some.injEq, BlockIdx.emtpy.injEq] at hq2
              exact Or.inr ⟨g, rfl, by omega⟩
            · rw [hug] at hq2
              simp at hq2
          · rw [if_neg hu1, if_neg hu2]
            exact hold
    case em_parent =>
      intro j q hj
      rw [hN] at hj
      split_ifs at hj with h1 h2
      · simp at hj
      · simp at hj
      · rcases hB.em_parent j q hj with ⟨c, hc, hjc⟩ | hd2
        · have hql : q < j := hB.em_lt j q hj
          left
          refine ⟨c, ?_, hjc⟩
          have hq1 : ¬(q = g) := by
            intro hx
            rw [hx, htag] at hc
            simp only [Option.some.injEq, BlockIdx.emptyStart.injEq] at hc
            -- c = required and j < g + required, j outside region, q = g < j: contradiction
            rcases not_and_or.mp h2 with hx2 | hx2 <;> omega
          have hq2 : ¬(g < q ∧ q < g + required) := by
            intro hx
            rw [hrun q hx.1 hx.2] at hc
            simp at hc
          rw [hN, if_neg hq1, if_neg hq2]
          exact hc
        · right
          intro v tg hv htg
          rw [hN] at htg
          split_ifs at htg with g1 g2
          · exfalso
            have := hd2 g (BlockIdx.emptyStart required) (by omega) htag
            simp at this
          · exfalso
            -- v in the new run interior, v > j: then g > j as well, contradiction via old d2 at g
            have hgj : g ≤ j ∨ j < g := by omega
            rcases Nat.lt_or_ge j g with hx | hx
            · have := hd2 g (BlockIdx.emptyStart required) hx htag
              simp at this
            · omega
          · exact hd2 v tg hv htg
    case ow_lt =>
      intro j q hj
      rw [hN] at hj
      split_ifs at hj with h1 h2
      · simp at hj
      · simp only [Option.some.injEq, BlockIdx.owned.injEq] at hj
        omega
      · exact hB.ow_lt j q hj
    case ow_parent =>
      intro j q hj
      rw [hN] at hj
      split_ifs at hj with h1 h2
      · simp at hj
      · simp only [Option.some.injEq, BlockIdx.owned.injEq] at hj
        refine ⟨0, ?_⟩
        rw [hN, if_pos hj.symm]
      · rcases hB.ow_parent j q hj with ⟨cnt, hq⟩
        refine ⟨cnt, ?_⟩
        have hq1 : ¬(q = g) := by
          intro hx
          rw [hx, htag] at hq
          simp at hq
        have hq2 : ¬(g < q ∧ q < g + required) := by
          intro hx
          rw [hrun q hx.1 hx.2] at hq
          simp at hq
        rw [hN, if_neg hq1, if_neg hq2]
        exact hq
    case ow_run =>
      intro j q u hj hqu huj
      rw [hN] at hj
      split_ifs at hj with h1 h2
      · simp at hj
      · simp only [Option.some.injEq, BlockIdx.owned.injEq] at hj
        rw [hN, if_neg (by omega : ¬(u = g)),
            if_pos (show g < u ∧ u < g + required by omega), hj]
      · have hold := hB.ow_run j q u hj hqu huj
        have hu1 : ¬(u = g) := by
          intro hx
          rw [hx, htag] at hold
          simp at hold
        have hu2 : ¬(g < u ∧ u < g + required) := by
          intro hx
          rw [hrun u hx.1 hx.2] at hold
          simp at hold
        rw [hN, if_neg hu1, if_neg hu2]
        exact hold
  · constructor
    case k_gen =>
      intro k hm
      rcases List.mem_append.mp hm with hm | hm
      · exact hK.k_gen k hm
      · rcases List.mem_singleton.mp hm with rfl
        exact le_refl _
    case k_blocks =>
      intro k hm hg
      rcases List.mem_append.mp hm with hm | hm
      · exact hK.k_blocks k hm hg
      · rcases List.mem_singleton.mp hm with rfl
        exact hreq
    case k_start =>
      intro k hm hg
      rcases List.mem_append.mp hm with hm | hm
      · rcases hK.k_start k hm hg with ⟨cnt, hc⟩
        have hk1 : ¬(k.idx = g) := hknotg k hm hg
        have hk2 : ¬(g < k.idx ∧ k.idx < g + required) := by
          intro hx
          rw [hrun k.idx hx.1 hx.2] at hc
          simp at hc
        refine ⟨cnt, ?_⟩
        rw [hN, if_neg hk1, if_neg hk2]
        exact hc
      · rcases List.mem_singleton.mp hm with rfl
        refine ⟨0, ?_⟩
        rw [hN, if_pos rfl]
    case k_run =>
      intro k hm hg u
      rcases List.mem_append.mp hm with hm | hm
      · have hold := hK.k_run k hm hg u
        have hk1 : ¬(k.idx = g) := hknotg k hm hg
        rw [hN]
        split_ifs with h1 h2
        · constructor
          · intro hx; simp at hx
          · intro hx
            have h4 := hold.mpr hx
            rw [h1, htag] at h4
            simp at h4
        · constructor
          · intro hx
            simp only [Option.some.injEq, BlockIdx.owned.injEq] at hx
            exact absurd hx.symm hk1
          · intro hx
            have h4 := hold.mpr hx
            rw [hrun u h2.1 h2.2] at h4
            simp at h4
        · exact hold
      · rcases List.mem_singleton.mp hm with rfl
        rw [hN]
        split_ifs with h1 h2
        · constructor
          · intro hx; simp at hx
          · intro hx
            simp only at hx
            omega
        · constructor
          · intro hx
            simp only at h2
            exact h2
          · intro hx
            rfl
        · constructor
          · intro hx
            exfalso
            rcases hB.ow_parent u g hx with ⟨cnt, hq⟩
            rw [htag] at hq
            simp at hq
          · intro hx
            simp only at hx
            exact absurd hx h2
    case k_distinct =>
      rw [List.pairwise_append]
      refine ⟨hK.k_distinct, List.pairwise_singleton _ _, ?_⟩
      intro k1 hm1 k2 hm2
      rcases List.mem_singleton.mp hm2 with rfl
      intro hg1 hg2
      exact hknotg k1 hm1 hg1

theorem createAt_inv {α : Type} {s1 s' : BlockStorage α} {gen block_id required : Nat}
    {key : BlockKey} {held : List BlockKey}
    (hB : BInv s1.blocks) (hK : KInv s1.blocks gen held)
    (hA : s1.available_blocks.Pairwise (· < ·))
    (htag : s1.blocks[block_id]? = some (BlockIdx.emptyStart required))
    (h : createAt s1 gen block_id required = .ok (key, s')) :
    BInv s'.blocks ∧ KInv s'.blocks gen (held ++ [key]) ∧
    s'.available_blocks.Pairwise (· < ·) ∧ s'.generation = s1.generation := by
  unfold createAt at h
  split at h
  · cases h
  · rename_i start_tag htg
    have hst : start_tag = BlockIdx.emptyStart required := by
      have h1 := tagAt_ok htg
      rw [htag] at h1
      injection h1 with h1
      exact h1.symm
    subst hst
    split at h
    · rename_i e hcnt
      simp [BlockIdx.get_empty_count] at hcnt
    · rename_i empty_count hcnt
      have hnlt : ¬(required < empty_count) := by
        have h2 := get_empty_count_ok hcnt
        injection h2 with h2
        omega
      simp only [if_neg hnlt] at h
      cases h
      rcases alloc_write_inv hB hK htag with ⟨hB2, hK2⟩
      exact ⟨hB2, hK2, btreeErase_pairwise hA, rfl⟩

theorem create_inv {α : Type} {s s' : BlockStorage α} {size : Nat} {key : BlockKey}
    {held : List BlockKey}
    (hB : BInv s.blocks) (hK : KInv s.blocks s.generation held)
    (hA : s.available_blocks.Pairwise (· < ·))
    (h : s.create size = .ok (key, s')) :
    BInv s'.blocks ∧ KInv s'.blocks s'.generation (held ++ [key]) ∧
    s'.available_blocks.Pairwise (· < ·) := by
  have hgen := (create_gen h).1
  unfold BlockStorage.create at h
  by_cases h0 : size = 0
  · simp [h0] at h
  · rw [if_neg h0] at h
    by_cases hbs : s.block_size = 0
    · simp [hbs] at h
    · rw [if_neg hbs] at h
      have hreq : 1 ≤ size / s.block_size + (if size % s.block_size > 0 then 1 else 0) := by
        by_cases hm : size % s.block_size > 0
        · rw [if_pos hm]
          exact Nat.le_add_left 1 _
        · rw [if_neg hm]
          have hmz : size % s.block_size = 0 := by omega
          have hdp : 0 < size / s.block_size :=
            Nat.div_pos (Nat.le_of_dvd (by omega) (Nat.dvd_of_mod_eq_zero hmz)) (by omega)
          rw [Nat.add_zero]
          exact hdp
      dsimp only at h
      split at h
      · cases h
      · rename_i id hf
        have htag := find_free_block_exact hf id rfl
        rcases createAt_inv hB hK hA htag h with ⟨hB2, hK2, hA2, hg2⟩
        refine ⟨hB2, ?_, hA2⟩
        rw [hgen]
        exact hK2
      · split at h
        · cases h
        · rename_i r hpu
          rcases push_empty_inv hB hK hreq hpu with ⟨hB1, hK1, htag1, havail1, hgen1, hik⟩
          rcases createAt_inv hB1 hK1
              (by rw [havail1]; exact hA) htag1 h with ⟨hB2, hK2, hA2, hg2⟩
          refine ⟨hB2, ?_, hA2⟩
          rw [hgen]
          exact hK2

theorem kinv_eraseIdx {B : List BlockIdx} {gen : Nat} {held : List BlockKey}
    (hK : KInv B gen held) (n : Nat) : KInv B gen (held.eraseIdx n) :=
  ⟨fun k hk => hK.k_gen k ((List.eraseIdx_sublist held n).subset hk),
   fun k hk => hK.k_blocks k ((List.eraseIdx_sublist held n).subset hk),
   fun k hk => hK.k_start k ((List.eraseIdx_sublist held n).subset hk),
   fun k hk => hK.k_run k ((List.eraseIdx_sublist held n).subset hk),
   List.Pairwise.sublist (List.eraseIdx_sublist held n) hK.k_distinct⟩

theorem free_write_inv {old : List BlockIdx} {gen : Nat} {held : List BlockKey}
    {kidx : Nat} {key : BlockKey} {startIdx endIdx : Nat}
    (hB : BInv old) (hK : KInv old gen held)
    (hmem : held[kidx]? = some key) (hkg : key.generation = gen)
    (hL : startIdx ≤ key.idx ∧
      (startIdx = key.idx ∨
        ∃ cL, old[startIdx]? = some (BlockIdx.emptyStart cL) ∧ startIdx + cL = key.idx ∧
          ∀ u, startIdx < u → u < key.idx → old[u]? = some (BlockIdx.emtpy startIdx)))
    (hR : key.idx + key.blocks ≤ endIdx ∧ endIdx ≤ old.length ∧
      (endIdx = key.idx + key.blocks ∨
        ∃ c2, old[key.idx + key.blocks]? = some (BlockIdx.emptyStart c2) ∧
          key.idx + key.blocks + c2 = endIdx ∧
          ∀ u, key.idx + key.blocks < u → u < endIdx →
            old[u]? = some (BlockIdx.emtpy (key.idx + key.blocks))))
    (hnoesend : ∀ i c, old[i]? = some (BlockIdx.emptyStart c) → ¬(i + c = startIdx))
    (hend : ∀ tg, old[endIdx]? = some tg →
        (∃ k2, tg = BlockIdx.ownedStart k2) ∨ (∃ p2, tg = BlockIdx.emtpy p2)) :
    BInv (writeRun (BlockIdx.emptyStart (endIdx - startIdx)) (BlockIdx.emtpy startIdx)
        old startIdx (endIdx - startIdx)) ∧
    KInv (writeRun (BlockIdx.emptyStart (endIdx - startIdx)) (BlockIdx.emtpy startIdx)
        old startIdx (endIdx - startIdx)) gen (held.eraseIdx kidx) := by
  obtain ⟨hx1, hLd⟩ := hL
  obtain ⟨hx2, hlen, hRd⟩ := hR
  have hkmem : key ∈ held := by
    rcases List.getElem?_eq_some.mp hmem with ⟨hlt, heq⟩
    exact heq ▸ List.getElem_mem hlt
  have hkb : 1 ≤ key.blocks := hK.k_blocks key hkmem hkg
  rcases hK.k_start key hkmem hkg with ⟨allocated, hkstart⟩
  have hkrun := hK.k_run key hkmem hkg
  have hcount : 1 ≤ endIdx - startIdx := by omega
  have hsem : ∀ q, ¬ old[startIdx]? = some (BlockIdx.emtpy q) := by
    intro q hq
    rcases hLd with hLd | ⟨cL, hes, _, _⟩
    · rw [hLd, hkstart] at hq
      simp at hq
    · rw [hes] at hq
      simp at hq
  have hsow : ∀ q, ¬ old[startIdx]? = some (BlockIdx.owned q) := by
    intro q hq
    rcases hLd with hLd | ⟨cL, hes, _, _⟩
    · rw [hLd, hkstart] at hq
      simp at hq
    · rw [hes] at hq
      simp at hq
  have hreg : ∀ u, startIdx ≤ u → u < endIdx →
      (∃ c0, old[u]? = some (BlockIdx.emptyStart c0) ∧ u + c0 ≤ endIdx) ∨
      (∃ q, old[u]? = some (BlockIdx.emtpy q) ∧ startIdx ≤ q) ∨
      (u = key.idx ∧ ∃ cnt, old[u]? = some (BlockIdx.ownedStart cnt)) ∨
      old[u]? = some (BlockIdx.owned key.idx) := by
    intro u hu1 hu2
    by_cases hc1 : u = key.idx
    · exact Or.inr (Or.inr (Or.inl ⟨hc1, allocated, by rw [hc1]; exact hkstart⟩))
    · by_cases hc2 : key.idx < u ∧ u < key.idx + key.blocks
      · exact Or.inr (Or.inr (Or.inr ((hkrun u).mpr hc2)))
      · by_cases hc3 : u < key.idx
        · rcases hLd with hLd | ⟨cL, hes, hcx, hrunL⟩
          · omega
          · by_cases hc4 : u = startIdx
            · exact Or.inl ⟨cL, by rw [hc4]; exact hes, by omega⟩
            · exact Or.inr (Or.inl ⟨startIdx, hrunL u (by omega) hc3, le_refl _⟩)
        · rcases hRd with hRd | ⟨c2, hes, hcx, hrunR⟩
          · omega
          · by_cases hc4 : u = key.idx + key.blocks
            · exact Or.inl ⟨c2, by rw [hc4]; exact hes, by omega⟩
            · exact Or.inr (Or.inl ⟨key.idx + key.blocks, hrunR u (by omega) hu2, by omega⟩)
  have hN : ∀ u, (writeRun (BlockIdx.emptyStart (endIdx - startIdx))
      (BlockIdx.emtpy startIdx) old startIdx (endIdx - startIdx))[u]? =
      if u = startIdx then some (BlockIdx.emptyStart (endIdx - startIdx))
      else if startIdx < u ∧ u < startIdx + (endIdx - startIdx)
        then some (BlockIdx.emtpy startIdx)
      else old[u]? := by
    intro u
    exact writeRun_getElem? _ _ old startIdx (endIdx - startIdx) hcount (by omega) u
  constructor
  · constructor
    case es_pos =>
      intro i c hi
      rw [hN] at hi
      split_ifs at hi with h1 h2
      · simp only [Option.some.injEq, BlockIdx.emptyStart.injEq] at hi
        omega
      · simp at hi
      · exact hB.es_pos i c hi
    case es_run =>
      intro i c j hi h1 h2
      rw [hN] at hi
      split_ifs at hi with hip hip2
      · simp only [Option.some.injEq, BlockIdx.emptyStart.injEq] at hi
        rw [hN, if_neg (show ¬(i + j = startIdx) by omega),
            if_pos (show startIdx < i + j ∧ i + j < startIdx + (endIdx - startIdx) by omega)]
        rw [hip]
      · simp at hi
      · have hold := hB.es_run i c j hi h1 h2
        have hicS : i < startIdx ∨ endIdx ≤ i := by
          rcases not_and_or.mp hip2 with hc | hc <;> omega
        have hout : i + j < startIdx ∨ endIdx ≤ i + j := by
          rcases hicS with hx | hx
          · left
            by_contra hcon
            have := hB.es_run i c (startIdx - i) hi (by omega) (by omega)
            rw [show i + (startIdx - i) = startIdx by omega] at this
            exact hsem i this
          · right
            omega
        rw [hN, if_neg (by omega : ¬(i + j = startIdx)),
            if_neg (by omega : ¬(startIdx < i + j ∧ i + j < startIdx + (endIdx - startIdx)))]
        exact hold
    case es_next =>
      intro i c tg hi htg
      rw [hN] at hi
      rw [hN] at htg
      split_ifs at hi with hip hip2
      · simp only [Option.some.injEq, BlockIdx.emptyStart.injEq] at hi
        split_ifs at htg with g1 g2
        · exfalso
          omega
        · exfalso
          omega
        · rw [show i + c = endIdx by omega] at htg
          exact hend tg htg
      · simp at hi
      · have hicS : i < startIdx ∨ endIdx ≤ i := by
          rcases not_and_or.mp hip2 with hc | hc <;> omega
        split_ifs at htg with g1 g2
        · exact absurd g1 (hnoesend i c hi)
        · exfalso
          rcases hicS with hx | hx
          · have := hB.es_run i c (startIdx - i) hi (by omega) (by omega)
            rw [show i + (startIdx - i) = startIdx by omega] at this
            exact hsem i this
          · omega
        · exact hB.es_next i c tg hi htg
    case em_lt =>
      intro j q hj
      rw [hN] at hj
      split_ifs at hj with h1 h2
      · simp at hj
      · simp only [Option.some.injEq, BlockIdx.emtpy.injEq] at hj
        omega
      · exact hB.em_lt j q hj
    case em_between =>
      intro j p u hj hpu huj
      rw [hN] at hj
      split_ifs at hj with h1 h2
      · simp at hj
      · simp only [Option.some.injEq, BlockIdx.emtpy.injEq] at hj
        rw [hN, if_neg (show ¬(u = startIdx) by omega),
            if_pos (show startIdx < u ∧ u < startIdx + (endIdx - startIdx) by omega)]
        exact Or.inl ⟨startIdx, rfl, by omega⟩
      · have hold := hB.em_between j p u hj hpu huj
        rw [hN]
        by_cases hu1 : u = startIdx
        · exfalso
          rcases hold with ⟨q2, hq2, _⟩ | ⟨q2, hq2, _⟩
          · exact hsem q2 (hu1 ▸ hq2)
          · exact hsow q2 (hu1 ▸ hq2)
        · by_cases hu2 : startIdx < u ∧ u < startIdx + (endIdx - startIdx)
          · rw [if_neg hu1, if_pos hu2]
            have hSp : startIdx ≤ p := by
              rcases hreg u (by omega) (by omega) with
                ⟨c0, hc0, _⟩ | ⟨q, hqe, hSq⟩ | ⟨_, cnt, hcn⟩ | ho
              · rcases hold with ⟨q2, hq2, _⟩ | ⟨q2, hq2, _⟩ <;>
                  rw [hc0] at hq2 <;> simp at hq2
              · rcases hold with ⟨q2, hq2, hq2p⟩ | ⟨q2, hq2, _⟩
                · rw [hqe] at hq2
                  simp only [Option.some.injEq, BlockIdx.emtpy.injEq] at hq2
                  omega
                · rw [hqe] at hq2
                  simp at hq2
              · rcases hold with ⟨q2, hq2, _⟩ | ⟨q2, hq2, _⟩ <;>
                  rw [hcn] at hq2 <;> simp at hq2
              · rcases hold with ⟨q2, hq2, _⟩ | ⟨q2, hq2, hq2p⟩
                · rw [ho] at hq2
                  simp at hq2
                · rw [ho] at hq2
                  simp only [Option.some.injEq, BlockIdx.owned.injEq] at hq2
                  omega
            exact Or.inl ⟨startIdx, rfl, hSp⟩
          · rw [if_neg hu1, if_neg hu2]
            exact hold
    case em_parent =>
      intro j p hj
      rw [hN] at hj
      split_ifs at hj with h1 h2
      · simp at hj
      · simp only [Option.some.injEq, BlockIdx.emtpy.injEq] at hj
        left
        refine ⟨endIdx - startIdx, ?_, by omega⟩
        rw [hN, if_pos hj.symm]
      · have hje : j < startIdx ∨ endIdx ≤ j := by
          rcases not_and_or.mp h2 with hy | hy <;> omega
        rcases hB.em_parent j p hj with ⟨c, hc, hjc⟩ | hd2
        · left
          have hpj := hB.em_lt j p hj
          have hpout : ¬(startIdx ≤ p ∧ p < endIdx) := by
            intro hx
            rcases hreg p hx.1 hx.2 with ⟨c0, hc0, hce⟩ | ⟨q, hqe, _⟩ | ⟨_, cnt, hcn⟩ | ho
            · rw [hc0] at hc
              simp only [Option.some.injEq, BlockIdx.emptyStart.injEq] at hc
              omega
            · rw [hqe] at hc
              simp at hc
            · rw [hcn] at hc
              simp at hc
            · rw [ho] at hc
              simp at hc
          refine ⟨c, ?_, hjc⟩
          rw [hN, if_neg (by omega : ¬(p = startIdx)),
              if_neg (by omega : ¬(startIdx < p ∧ p < startIdx + (endIdx - startIdx)))]
          exact hc
        · right
          rcases hje with hje | hje
          · exfalso
            have hlt : startIdx < old.length := by omega
            have hS := List.getElem?_eq_getElem hlt
            have hx := hd2 startIdx _ hje hS
            rw [hx] at hS
            exact hsem p hS
          · intro v tg hv htg
            rw [hN, if_neg (by omega : ¬(v = startIdx)),
                if_neg (by omega : ¬(startIdx < v ∧ v < startIdx + (endIdx - startIdx)))] at htg
            exact hd2 v tg hv htg
    case ow_lt =>
      intro j q hj
      rw [hN] at hj
      split_ifs at hj with h1 h2
      · simp at hj
      · simp at hj
      · exact hB.ow_lt j q hj
    case ow_parent =>
      intro j q hj
      rw [hN] at hj
      split_ifs at hj with h1 h2
      · simp at hj
      · simp at hj
      · rcases hB.ow_parent j q hj with ⟨cnt, hq⟩
        have hqreg : ¬(startIdx ≤ q ∧ q < endIdx) := by
          intro hx
          rcases hreg q hx.1 hx.2 with ⟨c0, hc0, _⟩ | ⟨q2, hqe, _⟩ | ⟨hxk, cnt2, hcn⟩ | ho
          · rw [hc0] at hq
            simp at hq
          · rw [hqe] at hq
            simp at hq
          · have := (hkrun j).mp (by rw [← hxk]; exact hj)
            rcases not_and_or.mp h2 with hy | hy <;> omega
          · rw [ho] at hq
            simp at hq
        refine ⟨cnt, ?_⟩
        rw [hN, if_neg (by omega : ¬(q = startIdx)),
            if_neg (by omega : ¬(startIdx < q ∧ q < startIdx + (endIdx - startIdx)))]
        exact hq
    case ow_run =>
      intro j q u hj hqu huj
      rw [hN] at hj
      split_ifs at hj with h1 h2
      · simp at hj
      · simp at hj
      · have hold := hB.ow_run j q u hj hqu huj
        have huout : ¬(startIdx ≤ u ∧ u < endIdx) := by
          intro hx
          rcases hreg u hx.1 hx.2 with ⟨c0, hc0, _⟩ | ⟨q2, hqe, _⟩ | ⟨hxk, cnt2, hcn⟩ | ho
          · rw [hc0] at hold
            simp at hold
          · rw [hqe] at hold
            simp at hold
          · rw [hcn] at hold
            simp at hold
          · rw [ho] at hold
            simp only [Option.some.injEq, BlockIdx.owned.injEq] at hold
            have := (hkrun j).mp (by rw [hold]; exact hj)
            rcases not_and_or.mp h2 with hy | hy <;> omega
        rw [hN, if_neg (by omega : ¬(u = startIdx)),
            if_neg (by omega : ¬(startIdx < u ∧ u < startIdx + (endIdx - startIdx)))]
        exact hold
  · have hsub : ∀ k2, k2 ∈ held.eraseIdx kidx → k2 ∈ held := by
      intro k2 hk2
      exact (List.eraseIdx_sublist held kidx).subset hk2
    have hkne : ∀ k2, k2 ∈ held.eraseIdx kidx → k2.generation = gen → k2.idx ≠ key.idx := by
      intro k2 hk2 hg2
      rcases List.mem_eraseIdx_iff_getElem?.mp hk2 with ⟨i, hine, hi⟩
      have hp := List.pairwise_iff_getElem.mp hK.k_distinct
      rcases List.getElem?_eq_some.mp hi with ⟨hilt, hieq⟩
      rcases List.getElem?_eq_some.mp hmem with ⟨hklt, hkeq⟩
      rcases Nat.lt_or_ge i kidx with hlt | hge
      · have := hp i kidx hilt hklt hlt
        rw [hieq, hkeq] at this
        exact this hg2 hkg
      · have hgt : kidx < i := by omega
        have := hp kidx i hklt hilt hgt
        rw [hieq, hkeq] at this
        exact fun hx => (this hkg hg2) hx.symm
    have hkout : ∀ k2, k2 ∈ held.eraseIdx kidx → k2.generation = gen →
        ¬(startIdx ≤ k2.idx ∧ k2.idx < endIdx) := by
      intro k2 hk2 hg2 hx
      rcases hK.k_start k2 (hsub k2 hk2) hg2 with ⟨cnt2, hc2⟩
      rcases hreg k2.idx hx.1 hx.2 with ⟨c0, hc0, _⟩ | ⟨q, hqe, _⟩ | ⟨hxk, cnt3, hcn⟩ | ho
      · rw [hc0] at hc2
        simp at hc2
      · rw [hqe] at hc2
        simp at hc2
      · exact hkne k2 hk2 hg2 hxk
      · rw [ho] at hc2
        simp at hc2
    have hkow : ∀ k2, k2 ∈ held.eraseIdx kidx → k2.generation = gen →
        ∀ u, startIdx ≤ u → u < endIdx → ¬ old[u]? = some (BlockIdx.owned k2.idx) := by
      intro k2 hk2 hg2 u hu1 hu2 hu3
      rcases hreg u hu1 hu2 with ⟨c0, hc0, _⟩ | ⟨q, hqe, _⟩ | ⟨_, cnt, hcn⟩ | ho
      · rw [hc0] at hu3
        simp at hu3
      · rw [hqe] at hu3
        simp at hu3
      · rw [hcn] at hu3
        simp at hu3
      · rw [ho] at hu3
        simp only [Option.some.injEq, BlockIdx.owned.injEq] at hu3
        exact hkne k2 hk2 hg2 hu3.symm
    constructor
    case k_gen =>
      intro k hk
      exact hK.k_gen k (hsub k hk)
    case k_blocks =>
      intro k hk hg2
      exact hK.k_blocks k (hsub k hk) hg2
    case k_start =>
      intro k hk hg2
      rcases hK.k_start k (hsub k hk) hg2 with ⟨cnt, hc⟩
      have hout := hkout k hk hg2
      refine ⟨cnt, ?_⟩
      rw [hN, if_neg (by omega : ¬(k.idx = startIdx)),
          if_neg (by omega : ¬(startIdx < k.idx ∧ k.idx < startIdx + (endIdx - startIdx)))]
      exact hc
    case k_run =>
      intro k hk hg2 u
      have hold := hK.k_run k (hsub k hk) hg2 u
      rw [hN]
      split_ifs with g1 g2
      · constructor
        · intro hx
          simp at hx
        · intro hx
          exfalso
          have h4 := hold.mpr hx
          rw [g1] at h4
          exact hsow k.idx h4
      · constructor
        · intro hx
          simp at hx
        · intro hx
          exfalso
          exact hkow k hk hg2 u (by omega) (by omega) (hold.mpr hx)
      · exact hold
    case k_distinct =>
      exact List.Pairwise.sublist (List.eraseIdx_sublist held kidx) hK.k_distinct

theorem remove_right_absorb {old : List BlockIdx} {x b c2 : Nat}
    (hB : BInv old)
    (hnb : old[x + b]? = some (BlockIdx.emptyStart c2)) :
    (x + b ≤ x + b + c2 ∧ x + b + c2 ≤ old.length ∧
      (x + b + c2 = x + b ∨
        ∃ c3, old[x + b]? = some (BlockIdx.emptyStart c3) ∧ x + b + c3 = x + b + c2 ∧
          ∀ u, x + b < u → u < x + b + c2 → old[u]? = some (BlockIdx.emtpy (x + b)))) ∧
    (∀ tg, old[x + b + c2]? = some tg →
        (∃ k2, tg = BlockIdx.ownedStart k2) ∨ (∃ p2, tg = BlockIdx.emtpy p2)) := by
  refine ⟨⟨by omega, hB.es_extent hnb, Or.inr ⟨c2, hnb, rfl, ?_⟩⟩, ?_⟩
  · intro u hu1 hu2
    have := hB.es_run (x + b) c2 (u - (x + b)) hnb (by omega) (by omega)
    rw [show x + b + (u - (x + b)) = u by omega] at this
    exact this
  · intro tg htg
    exact hB.es_next (x + b) c2 tg hnb htg

theorem remove_right_none {old : List BlockIdx} {gen : Nat} {held : List BlockKey}
    {key : BlockKey} {allocated : Nat}
    (hB : BInv old) (hK : KInv old gen held) (hkmem : key ∈ held) (hkg : key.generation = gen)
    (hkstart : old[key.idx]? = some (BlockIdx.ownedStart allocated))
    (hnbne : ∀ c, old[key.idx + key.blocks]? = some (BlockIdx.emptyStart c) → False) :
    (key.idx + key.blocks ≤ key.idx + key.blocks ∧ key.idx + key.blocks ≤ old.length ∧
      (key.idx + key.blocks = key.idx + key.blocks ∨
        ∃ c3, old[key.idx + key.blocks]? = some (BlockIdx.emptyStart c3) ∧
          key.idx + key.blocks + c3 = key.idx + key.blocks ∧
          ∀ u, key.idx + key.blocks < u → u < key.idx + key.blocks →
            old[u]? = some (BlockIdx.emtpy (key.idx + key.blocks)))) ∧
    (∀ tg, old[key.idx + key.blocks]? = some tg →
        (∃ k2, tg = BlockIdx.ownedStart k2) ∨ (∃ p2, tg = BlockIdx.emtpy p2)) := by
  have hkrun := hK.k_run key hkmem hkg
  have hext := hK.k_extent hkmem hkg
  refine ⟨⟨le_refl _, hext, Or.inl rfl⟩, ?_⟩
  intro tg htg
  cases tg with
  | ownedStart k2 => exact Or.inl ⟨k2, rfl⟩
  | emtpy p2 => exact Or.inr ⟨p2, rfl⟩
  | emptyStart c => exact absurd htg (fun hx => hnbne c hx)
  | owned q =>
      exfalso
      rcases Nat.lt_trichotomy q key.idx with hq | hq | hq
      · have := hB.ow_run (key.idx + key.blocks) q key.idx htg hq (by omega)
        rw [hkstart] at this
        simp at this
      · subst hq
        have := (hkrun (key.idx + key.blocks)).mp htg
        omega
      · have hql := hB.ow_lt _ _ htg
        have h5 := (hkrun q).mpr ⟨hq, hql⟩
        rcases hB.ow_parent _ _ htg with ⟨cnt, hp⟩
        rw [h5] at hp
        simp at hp

theorem remove_left_emtpy {old : List BlockIdx} {x par allocated : Nat}
    (hB : BInv old)
    (hkstart : old[x]? = some (BlockIdx.ownedStart allocated))
    (h0 : 0 < x)
    (hlm : old[x - 1]? = some (BlockIdx.emtpy par)) :
    (par ≤ x ∧ (par = x ∨ ∃ cL, old[par]? = some (BlockIdx.emptyStart cL) ∧ par + cL = x ∧
        ∀ u, par < u → u < x → old[u]? = some (BlockIdx.emtpy par))) ∧
    (∀ i c, old[i]? = some (BlockIdx.emptyStart c) → ¬(i + c = par)) := by
  have hparlt : par < x - 1 := hB.em_lt _ _ hlm
  rcases hB.em_parent (x - 1) par hlm with ⟨cL, hcL, hjcL⟩ | hd2
  · have hcLle : par + cL ≤ x := by
      by_contra hcon
      have := hB.es_run par cL (x - par) hcL (by omega) (by omega)
      rw [show par + (x - par) = x by omega, hkstart] at this
      simp at this
    have hcLeq : par + cL = x := by omega
    refine ⟨⟨by omega, Or.inr ⟨cL, hcL, hcLeq, ?_⟩⟩, ?_⟩
    · intro u hu1 hu2
      have := hB.es_run par cL (u - par) hcL (by omega) (by omega)
      rw [show par + (u - par) = u by omega] at this
      exact this
    · intro i c hi hx
      rcases hB.es_next i c _ hi (by rw [hx]; exact hcL) with ⟨k2, hk2⟩ | ⟨p2, hp2⟩
      · simp at hk2
      · simp at hp2
  · exfalso
    have := hd2 x _ (by omega) hkstart
    simp at this

theorem remove_left_es {old : List BlockIdx} {x s0 allocated : Nat}
    (hB : BInv old)
    (hkstart : old[x]? = some (BlockIdx.ownedStart allocated))
    (h0 : 0 < x)
    (hlS : old[x - 1]? = some (BlockIdx.emptyStart s0)) :
    (x - 1 ≤ x ∧ (x - 1 = x ∨ ∃ cL, old[x - 1]? = some (BlockIdx.emptyStart cL) ∧
        (x - 1) + cL = x ∧ ∀ u, x - 1 < u → u < x → old[u]? = some (BlockIdx.emtpy (x - 1)))) ∧
    (∀ i c, old[i]? = some (BlockIdx.emptyStart c) → ¬(i + c = x - 1)) := by
  have hs01 : s0 = 1 := by
    have hp1 := hB.es_pos _ _ hlS
    by_contra hcon
    have := hB.es_run (x - 1) s0 1 hlS (le_refl _) (by omega)
    rw [show x - 1 + 1 = x by omega, hkstart] at this
    simp at this
  subst hs01
  refine ⟨⟨by omega, Or.inr ⟨1, hlS, by omega, fun u hu1 hu2 => absurd hu2 (by omega)⟩⟩, ?_⟩
  intro i c hi hx
  rcases hB.es_next i c _ hi (by rw [hx]; exact hlS) with ⟨k2, hk2⟩ | ⟨p2, hp2⟩
  · simp at hk2
  · simp at hp2

theorem remove_left_default {old : List BlockIdx} {x : Nat}
    (hB : BInv old)
    (hne1 : ∀ parent, old[x - 1]? = some (BlockIdx.emtpy parent) → False)
    (hne2 : ∀ c, old[x - 1]? = some (BlockIdx.emptyStart c) → False)
    (h0 : 0 < x) :
    (x ≤ x ∧ (x = x ∨ ∃ cL, old[x]? = some (BlockIdx.emptyStart cL) ∧ x + cL = x ∧
        ∀ u, x < u → u < x → old[u]? = some (BlockIdx.emtpy x))) ∧
    (∀ i c, old[i]? = some (BlockIdx.emptyStart c) → ¬(i + c = x)) := by
  refine ⟨⟨le_refl _, Or.inl rfl⟩, ?_⟩
  intro i c hi hx
  have hc1 := hB.es_pos i c hi
  by_cases hc2 : c = 1
  · subst hc2
    have hieq : i = x - 1 := by omega
    exact hne2 1 (hieq ▸ hi)
  · have h5 := hB.es_run i c (c - 1) hi (by omega) (by omega)
    rw [show i + (c - 1) = x - 1 by omega] at h5
    exact hne1 i h5

theorem remove_inv {α : Type} {s s' : BlockStorage α} {key : BlockKey}
    {held : List BlockKey} {kidx : Nat}
    (hB : BInv s.blocks) (hK : KInv s.blocks s.generation held)
    (hA : s.available_blocks.Pairwise (· < ·))
    (hmem : held[kidx]? = some key)
    (h : s.remove key = .ok s') :
    BInv s'.blocks ∧ KInv s'.blocks s'.generation (held.eraseIdx kidx) ∧
    s'.available_blocks.Pairwise (· < ·) := by
  unfold BlockStorage.remove at h
  by_cases hg : key.generation = s.generation
  case neg =>
    rw [if_pos hg] at h
    cases h
    exact ⟨hB, kinv_eraseIdx hK kidx, hA⟩
  case pos =>
    rw [if_neg (not_not_intro hg)] at h
    split at h
    · cases h
    · cases h
      exact ⟨hB, kinv_eraseIdx hK kidx, hA⟩
    · cases h
      exact ⟨hB, kinv_eraseIdx hK kidx, hA⟩
    · cases h
      exact ⟨hB, kinv_eraseIdx hK kidx, hA⟩
    · rename_i allocated htg
      split at h
      · cases h
      · rename_i data2 hdr
        have hkmem : key ∈ held := by
          rcases List.getElem?_eq_some.mp hmem with ⟨hlt, heq⟩
          exact heq ▸ List.getElem_mem hlt
        have hkstart : s.blocks[key.idx]? = some (BlockIdx.ownedStart allocated) :=
          tagAt_ok htg
        dsimp only at h
        split at h
        · rename_i h0
          split at h
          · rename_i par hlm
            rcases remove_left_emtpy hB hkstart h0 hlm with ⟨hLd, hnoesend⟩
            split at h
            · rename_i c2 hnb
              rcases remove_right_absorb (b := key.blocks) hB hnb with ⟨hRd, hend⟩
              dsimp only at h
              cases h
              exact ⟨(free_write_inv hB hK hmem hg hLd hRd hnoesend hend).1,
                     (free_write_inv hB hK hmem hg hLd hRd hnoesend hend).2,
                     btreeInsert_pairwise (btreeErase_pairwise (btreeErase_pairwise hA))⟩
            · rename_i hnbne
              rcases remove_right_none hB hK hkmem hg hkstart hnbne with ⟨hRd, hend⟩
              dsimp only at h
              cases h
              exact ⟨(free_write_inv hB hK hmem hg hLd hRd hnoesend hend).1,
                     (free_write_inv hB hK hmem hg hLd hRd hnoesend hend).2,
                     btreeInsert_pairwise (btreeErase_pairwise hA)⟩
          · rename_i s0 hlS
            rcases remove_left_es hB hkstart h0 hlS with ⟨hLd, hnoesend⟩
            split at h
            · rename_i c2 hnb
              rcases remove_right_absorb (b := key.blocks) hB hnb with ⟨hRd, hend⟩
              dsimp only at h
              cases h
              exact ⟨(free_write_inv hB hK hmem hg hLd hRd hnoesend hend).1,
                     (free_write_inv hB hK hmem hg hLd hRd hnoesend hend).2,
                     btreeInsert_pairwise (btreeErase_pairwise (btreeErase_pairwise hA))⟩
            · rename_i hnbne
              rcases remove_right_none hB hK hkmem hg hkstart hnbne with ⟨hRd, hend⟩
              dsimp only at h
              cases h
              exact ⟨(free_write_inv hB hK hmem hg hLd hRd hnoesend hend).1,
                     (free_write_inv hB hK hmem hg hLd hRd hnoesend hend).2,
                     btreeInsert_pairwise (btreeErase_pairwise hA)⟩
          · rename_i hne1 hne2
            rcases remove_left_default hB hne1 hne2 h0 with ⟨hLd, hnoesend⟩
            split at h
            · rename_i c2 hnb
              rcases remove_right_absorb (b := key.blocks) hB hnb with ⟨hRd, hend⟩
              dsimp only at h
              cases h
              exact ⟨(free_write_inv hB hK hmem hg hLd hRd hnoesend hend).1,
                     (free_write_inv hB hK hmem hg hLd hRd hnoesend hend).2,
                     btreeInsert_pairwise (btreeErase_pairwise hA)⟩
            · rename_i hnbne
              rcases remove_right_none hB hK hkmem hg hkstart hnbne with ⟨hRd, hend⟩
              dsimp only at h
              cases h
              exact ⟨(free_write_inv hB hK hmem hg hLd hRd hnoesend hend).1,
                     (free_write_inv hB hK hmem hg hLd hRd hnoesend hend).2,
                     btreeInsert_pairwise hA⟩
        · rename_i h0
          have hLd : key.idx ≤ key.idx ∧ (key.idx = key.idx ∨
              ∃ cL, s.blocks[key.idx]? = some (BlockIdx.emptyStart cL) ∧
                key.idx + cL = key.idx ∧
                ∀ u, key.idx < u → u < key.idx →
                  s.blocks[u]? = some (BlockIdx.emtpy key.idx)) :=
            ⟨le_refl _, Or.inl rfl⟩
          have hnoesend : ∀ i c, s.blocks[i]? = some (BlockIdx.emptyStart c) →
              ¬(i + c = key.idx) := by
            intro i c hi hx
            have := hB.es_pos i c hi
            omega
          split at h
          · rename_i c2 hnb
            rcases remove_right_absorb (b := key.blocks) hB hnb with ⟨hRd, hend⟩
            dsimp only at h
            cases h
            exact ⟨(free_write_inv hB hK hmem hg hLd hRd hnoesend hend).1,
                   (free_write_inv hB hK hmem hg hLd hRd hnoesend hend).2,
                   btreeInsert_pairwise (btreeErase_pairwise hA)⟩
          · rename_i hnbne
            rcases remove_right_none hB hK hkmem hg hkstart hnbne with ⟨hRd, hend⟩
            dsimp only at h
            cases h
            exact ⟨(free_write_inv hB hK hmem hg hLd hRd hnoesend hend).1,
                   (free_write_inv hB hK hmem hg hLd hRd hnoesend hend).2,
                   btreeInsert_pairwise hA⟩

theorem clear_inv {α : Type} {s s' : BlockStorage α} {held : List BlockKey}
    (hK : KInv s.blocks s.generation held)
    (h : s.clear = .ok s') :
    BInv s'.blocks ∧ KInv s'.blocks s'.generation held ∧
    s'.available_blocks.Pairwise (· < ·) := by
  unfold BlockStorage.clear at h
  split at h
  · cases h
  · rename_i s2 hcd
    cases h
    unfold BlockStorage.clear_data at hcd
    split at hcd
    · cases hcd
    · cases hcd
      dsimp only
      refine ⟨?_, ?_, ?_⟩
      · constructor
        case es_pos => intro i c hi; simp at hi
        case es_run => intro i c j hi _ _; simp at hi
        case es_next => intro i c tg hi _; simp at hi
        case em_lt => intro j p hj; simp at hj
        case em_between => intro j p u hj _ _; simp at hj
        case em_parent => intro j p hj; simp at hj
        case ow_lt => intro j q hj; simp at hj
        case ow_parent => intro j q hj; simp at hj
        case ow_run => intro j q u hj _ _; simp at hj
      · constructor
        case k_gen =>
          intro k hk
          exact le_trans (hK.k_gen k hk) (Nat.le_succ _)
        case k_blocks =>
          intro k hk hg2
          exact absurd hg2 (by have := hK.k_gen k hk; omega)
        case k_start =>
          intro k hk hg2
          exact absurd hg2 (by have := hK.k_gen k hk; omega)
        case k_run =>
          intro k hk hg2
          exact absurd hg2 (by have := hK.k_gen k hk; omega)
        case k_distinct =>
          refine List.Pairwise.imp_of_mem ?_ hK.k_distinct
          intro a b ha hb _ hg2
          exact absurd hg2 (by have := hK.k_gen a ha; omega)
      · exact List.Pairwise.nil

theorem initState_inv (α : Type) (bs : Nat) : StInv (initState α bs) := by
  refine ⟨?_, ?_, ?_⟩
  · constructor
    case es_pos => intro i c hi; simp [initState, BlockStorage.new] at hi
    case es_run => intro i c j hi _ _; simp [initState, BlockStorage.new] at hi
    case es_next => intro i c tg hi _; simp [initState, BlockStorage.new] at hi
    case em_lt => intro j p hj; simp [initState, BlockStorage.new] at hj
    case em_between => intro j p u hj _ _; simp [initState, BlockStorage.new] at hj
    case em_parent => intro j p hj; simp [initState, BlockStorage.new] at hj
    case ow_lt => intro j q hj; simp [initState, BlockStorage.new] at hj
    case ow_parent => intro j q hj; simp [initState, BlockStorage.new] at hj
    case ow_run => intro j q u hj _ _; simp [initState, BlockStorage.new] at hj
  · constructor
    case k_gen => intro k hk; simp [initState] at hk
    case k_blocks => intro k hk; simp [initState] at hk
    case k_start => intro k hk; simp [initState] at hk
    case k_run => intro k hk; simp [initState] at hk
    case k_distinct => exact List.Pairwise.nil
  · exact List.Pairwise.nil

theorem step_inv {α : Type} {t t' : TraceState α} {op : Op}
    (hI : StInv t) (h : stepOp t op = .ok t') : StInv t' := by
  obtain ⟨hB, hK, hA⟩ := hI
  cases op with
  | create size =>
      simp only [stepOp] at h
      split at h
      · cases h
      · rename_i r hc
        cases h
        rcases create_inv hB hK hA hc with ⟨h1, h2, h3⟩
        exact ⟨h1, h2, h3⟩
  | remove k =>
      simp only [stepOp] at h
      split at h
      · cases h
        exact ⟨hB, hK, hA⟩
      · rename_i key hkey
        split at h
        · cases h
        · rename_i s2 hrm
          cases h
          rcases remove_inv hB hK hA hkey hrm with ⟨h1, h2, h3⟩
          exact ⟨h1, h2, h3⟩
  | clear =>
      simp only [stepOp] at h
      split at h
      · cases h
      · rename_i s2 hcl
        cases h
        rcases clear_inv hK hcl with ⟨h1, h2, h3⟩
        exact ⟨h1, h2, h3⟩

theorem run_inv {α : Type} {t t' : TraceState α} {ops : List Op}
    (hI : StInv t) (h : runOps t ops = .ok t') : StInv t' := by
  induction ops generalizing t with
  | nil =>
      simp only [runOps] at h
      cases h
      exact hI
  | cons op ops ih =>
      simp only [runOps] at h
      split at h
      · cases h
      · rename_i t1 h1
        exact ih (step_inv hI h1) h

/-- C3: after any finite sequence of operations on a fresh storage, no two
adjacent blocks are both free-run starts (`remove` fully coalesces with the
free runs on both sides), and the free-run index records each start once
(strictly sorted). -/
theorem remove_coalescing {α : Type} {bs : Nat} {ops : List Op} {t : TraceState α}
    (h : runOps (initState α bs) ops = .ok t) :
    (∀ (i c c' : Nat), t.storage.blocks[i]? = some (BlockIdx.emptyStart c) →
      t.storage.blocks[i + 1]? = some (BlockIdx.emptyStart c') → False) ∧
    t.storage.available_blocks.Pairwise (· < ·) := by
  rcases run_inv (initState_inv α bs) h with ⟨hB, hK, hA⟩
  refine ⟨?_, hA⟩
  intro i c c' h1 h2
  have hc1 := hB.es_pos i c h1
  by_cases hc : c = 1
  · subst hc
    rcases hB.es_next i 1 _ h1 h2 with ⟨k2, hk2⟩ | ⟨p2, hp2⟩
    · simp at hk2
    · simp at hp2
  · have := hB.es_run i c 1 h1 (le_refl _) (by omega)
    rw [h2] at this
    simp at this

theorem remove_coalescing_witness :
    ∃ t : TraceState Nat,
      runOps (initState Nat 1)
        [Op.create 1, Op.create 1, Op.create 1, Op.remove 1, Op.remove 0, Op.remove 0] =
        .ok t ∧
      ((∀ (i c c' : Nat), t.storage.blocks[i]? = some (BlockIdx.emptyStart c) →
          t.storage.blocks[i + 1]? = some (BlockIdx.emptyStart c') → False) ∧
        t.storage.available_blocks.Pairwise (· < ·)) := by
  have h : runOps (initState Nat 1)
      [Op.create 1, Op.create 1, Op.create 1, Op.remove 1, Op.remove 0, Op.remove 0] =
      .ok ⟨⟨1, 0, [⟨2, 1⟩, ⟨1, 1⟩, ⟨0, 1⟩], [0],
            [BlockIdx.emptyStart 3, BlockIdx.emtpy 0, BlockIdx.emtpy 0],
            [none, none, none]⟩, []⟩ := by rfl
  exact ⟨_, h, remove_coalescing h⟩

/-- C5: in every state reachable by create/remove/clear from a fresh storage,
two held keys of the current generation with distinct start blocks address
disjoint block ranges `[idx, idx + blocks)`. -/
theorem key_disjointness {α : Type} {bs : Nat} {ops : List Op} {t : TraceState α}
    (h : runOps (initState α bs) ops = .ok t) :
    ∀ k1 ∈ t.held, ∀ k2 ∈ t.held,
      k1.generation = t.storage.generation → k2.generation = t.storage.generation →
      k1.idx ≠ k2.idx →
      ∀ (u : Nat), k1.idx ≤ u → u < k1.idx + k1.blocks →
        ¬(k2.idx ≤ u ∧ u < k2.idx + k2.blocks) := by
  rcases run_inv (initState_inv α bs) h with ⟨hB, hK, hA⟩
  intro k1 hm1 k2 hm2 hg1 hg2 hne u hu1 hu2 hu3
  rcases hK.k_start k1 hm1 hg1 with ⟨cnt1, hs1⟩
  rcases hK.k_start k2 hm2 hg2 with ⟨cnt2, hs2⟩
  have hr1 := hK.k_run k1 hm1 hg1
  have hr2 := hK.k_run k2 hm2 hg2
  by_cases hc1 : u = k1.idx
  · have hu4 : k2.idx < u := by omega
    have := (hr2 u).mpr ⟨hu4, hu3.2⟩
    rw [hc1, hs1] at this
    simp at this
  · have h5 := (hr1 u).mpr ⟨by omega, hu2⟩
    by_cases hc2 : u = k2.idx
    · rw [hc2, hs2] at h5
      simp at h5
    · have h6 := (hr2 u).mpr ⟨by omega, hu3.2⟩
      rw [h5] at h6
      simp only [Option.some.injEq, BlockIdx.owned.injEq] at h6
      exact hne h6

theorem key_disjointness_witness :
    ∃ t : TraceState Nat,
      runOps (initState Nat 1) [Op.create 1, Op.create 2] = .ok t ∧
      (∀ k1 ∈ t.held, ∀ k2 ∈ t.held,
        k1.generation = t.storage.generation → k2.generation = t.storage.generation →
        k1.idx ≠ k2.idx →
        ∀ (u : Nat), k1.idx ≤ u → u < k1.idx + k1.blocks →
          ¬(k2.idx ≤ u ∧ u < k2.idx + k2.blocks)) := by
  have h : runOps (initState Nat 1) [Op.create 1, Op.create 2] =
      .ok ⟨⟨1, 0, [⟨1, 2⟩, ⟨0, 1⟩], [],
            [BlockIdx.ownedStart 0, BlockIdx.ownedStart 0, BlockIdx.owned 1],
            [none, none, none]⟩, [⟨0, 1, 0⟩, ⟨1, 2, 0⟩]⟩ := by rfl
  exact ⟨_, h, key_disjointness h⟩
